import Mathlib

/-!
# Verification of the esmond Cassandra time-series core

Shallow embedding of `esmond/cassandra.py` (row-key codec, metadata cache,
stat-aggregation cache, query planner) together with theorems settling the
specification claims.  Strings are modelled as `List Char`, JavaScript
millisecond timestamps as `Nat`, counter values as `Int`, and the real-number
arithmetic of read-side consolidation as `ℚ`.
-/

namespace Esmond

/-! ## Row-key codec (`escape_path`, `get_rowkey`, `_split_rowkey`) -/

/-- `KEY_DELIMITER = ":"` from the source. -/
def KEY_DELIMITER : Char := ':'

/-- The escape character used by `_split_rowkey` (Python `'\\'`). -/
def ESCAPE : Char := '\\'

/-- One step of `escape_path`: Python `step.replace(":", "\\:")`, replacing
every `':'` by the two characters `'\'`, `':'`. -/
def escapeStep : List Char → List Char
  | [] => []
  | c :: cs => if c = ':' then '\\' :: ':' :: escapeStep cs else c :: escapeStep cs

/-- `escape_path(path)`: escape every step. -/
def escape_path (path : List (List Char)) : List (List Char) :=
  path.map escapeStep

/-- `KEY_DELIMITER.join(...)`: join segments with `':'`. -/
def joinColon : List (List Char) → List Char
  | [] => []
  | [x] => x
  | x :: xs => x ++ ':' :: joinColon xs

/-- Decimal digit character, `chr(48 + d)` for `d < 10`. -/
def digitChar (d : Nat) : Char := Char.ofNat (48 + d)

/-- Fuel-driven decimal printer (the fuel strictly exceeds the argument, which
is more than the number of divisions by ten the loop performs). -/
def natCharsAux : Nat → Nat → List Char
  | 0, _ => []
  | fuel + 1, n =>
      if n < 10 then [digitChar n]
      else natCharsAux fuel (n / 10) ++ [digitChar (n % 10)]

/-- Python `str(n)` for a non-negative integer `n`. -/
def natChars (n : Nat) : List Char := natCharsAux (n + 1) n

/-- `get_rowkey(path, freq=None, year=None)`: escape the path steps, append
`str(freq)` and `str(year)` when they are truthy (not `None` and non-zero),
and join everything with `':'`. -/
def get_rowkey (path : List (List Char)) (freq year : Option Nat) : List Char :=
  let appends :=
    (match freq with
     | some f => if f ≠ 0 then [natChars f] else []
     | none => []) ++
    (match year with
     | some y => if y ≠ 0 then [natChars y] else []
     | none => [])
  joinColon (escape_path path ++ appends)

/-- Prepend a character onto the first piece of a split result. -/
def consHead1 (c : Char) : List (List Char) → List (List Char)
  | [] => [[c]]
  | l :: ls => (c :: l) :: ls

/-- The splitting loop of `_split_rowkey`: walk the string left to right, and
start a new piece at every `':'` that is not immediately preceded by the
escape character.  The `esc` flag records whether the previous character was
`'\'` (Python `i > 0 and s[i-1] == escape`); at the start of the string it is
`false`, matching the `i == 0` branch that always splits. -/
def splitRaw (esc : Bool) : List Char → List (List Char)
  | [] => [[]]
  | c :: rest =>
      if c = ':' ∧ esc = false then [] :: splitRaw false rest
      else consHead1 c (splitRaw (c = '\\') rest)

/-- Python `piece.replace(escape, "")`: drop every `'\'`. -/
def unescapePiece (piece : List Char) : List Char :=
  piece.filter (fun c => c ≠ '\\')

/-- `_split_rowkey` applies `.replace(escape, "")` to every piece produced by
the index loop *except the final one*, which is appended raw
(`out.append(s[last:])`). -/
def unescapeInit : List (List Char) → List (List Char)
  | [] => []
  | [x] => [x]
  | x :: xs => unescapePiece x :: unescapeInit xs

/-- `_split_rowkey(s)`: the elements of the row key, taking escaping into
account (split at unescaped `':'`, strip `'\'` from all but the last piece). -/
def split_rowkey (s : List Char) : List (List Char) :=
  unescapeInit (splitRaw false s)

end Esmond

namespace Esmond

/-! ### Codec lemmas -/

/-- Prepend a whole list of characters onto the first piece. -/
def consHead (xs : List Char) : List (List Char) → List (List Char)
  | [] => [xs]
  | l :: ls => (xs ++ l) :: ls

theorem splitRaw_ne_nil (esc : Bool) (s : List Char) : splitRaw esc s ≠ [] := by
  induction s generalizing esc with
  | nil => simp [splitRaw]
  | cons c rest ih =>
    simp only [splitRaw]
    split
    · simp
    · cases h : splitRaw (c = '\\') rest with
      | nil => exact absurd h (ih _)
      | cons l ls => simp [consHead1]

theorem consHead1_consHead (a : Char) (xs : List Char) (l : List (List Char)) :
    consHead1 a (consHead xs l) = consHead (a :: xs) l := by
  cases l <;> simp [consHead1, consHead]

theorem consHead_nil_of_ne (l : List (List Char)) (h : l ≠ []) : consHead [] l = l := by
  cases l with
  | nil => exact absurd rfl h
  | cons x xs => simp [consHead]

/-- Processing an escaped step never starts a new piece: every `':'` inside it
is immediately preceded by `'\'`. -/
theorem splitRaw_escapeStep (step : List Char) (rest : List Char)
    (hbs : '\\' ∉ step) :
    splitRaw false (escapeStep step ++ rest)
      = consHead (escapeStep step) (splitRaw false rest) := by
  induction step with
  | nil =>
    simp only [escapeStep, List.nil_append]
    exact (consHead_nil_of_ne _ (splitRaw_ne_nil false rest)).symm
  | cons c cs ih =>
    have hbs' : '\\' ∉ cs := fun h => hbs (List.mem_cons_of_mem _ h)
    have hcbs : c ≠ '\\' := fun h => hbs (h ▸ List.mem_cons_self c cs)
    by_cases hc : c = ':'
    · subst hc
      rw [show escapeStep (':' :: cs) = '\\' :: ':' :: escapeStep cs from by
            simp [escapeStep]]
      simp only [List.cons_append]
      rw [show splitRaw false ('\\' :: ':' :: (escapeStep cs ++ rest))
            = consHead1 '\\' (consHead1 ':' (splitRaw false (escapeStep cs ++ rest)))
          from by simp [splitRaw]]
      rw [ih hbs', consHead1_consHead, consHead1_consHead]
    · simp only [escapeStep, if_neg hc, List.cons_append]
      rw [show splitRaw false (c :: (escapeStep cs ++ rest))
            = consHead1 c (splitRaw (c = '\\') (escapeStep cs ++ rest))
          from by simp [splitRaw, hc]]
      have : splitRaw (c = '\\') (escapeStep cs ++ rest)
          = splitRaw false (escapeStep cs ++ rest) := by simp [hcbs]
      rw [this, ih hbs', consHead1_consHead]

theorem joinColon_cons (x : List Char) (rest : List (List Char)) (h : rest ≠ []) :
    joinColon (x :: rest) = x ++ ':' :: joinColon rest := by
  cases rest with
  | nil => exact absurd rfl h
  | cons y ys => rfl

theorem splitRaw_colon (t : List Char) :
    splitRaw false (':' :: t) = [] :: splitRaw false t := by
  simp [splitRaw]

/-- Splitting the escaped-and-joined steps recovers one raw piece per step. -/
theorem splitRaw_joinColon (steps : List (List Char)) (ys : List (List Char))
    (hbs : ∀ s ∈ steps, '\\' ∉ s) (hys : ys ≠ []) :
    splitRaw false (joinColon (steps.map escapeStep ++ ys))
      = steps.map escapeStep ++ splitRaw false (joinColon ys) := by
  induction steps with
  | nil => simp
  | cons s ss ih =>
    have hne : ss.map escapeStep ++ ys ≠ [] := by
      intro h
      exact hys (List.append_eq_nil.mp h).2
    rw [List.map_cons, List.cons_append, joinColon_cons _ _ hne]
    rw [show escapeStep s ++ ':' :: joinColon (ss.map escapeStep ++ ys)
          = escapeStep s ++ (':' :: joinColon (ss.map escapeStep ++ ys)) from rfl]
    rw [splitRaw_escapeStep s _ (hbs s (List.mem_cons_self s ss))]
    rw [splitRaw_colon]
    rw [ih (fun x hx => hbs x (List.mem_cons_of_mem _ hx))]
    simp [consHead]

theorem unescapeInit_append_last (xs : List (List Char)) (b : List Char) :
    unescapeInit (xs ++ [b]) = xs.map unescapePiece ++ [b] := by
  induction xs with
  | nil => rfl
  | cons x xs ih =>
    cases xs with
    | nil => rfl
    | cons y ys =>
      rw [show (x :: y :: ys) ++ [b] = x :: ((y :: ys) ++ [b]) from rfl]
      rw [show unescapeInit (x :: ((y :: ys) ++ [b]))
            = unescapePiece x :: unescapeInit ((y :: ys) ++ [b]) from rfl]
      rw [ih]
      simp

theorem unescapePiece_id (s : List Char) (h : '\\' ∉ s) : unescapePiece s = s := by
  unfold unescapePiece
  rw [List.filter_eq_self]
  intro c hc
  simp only [decide_eq_true_eq]
  exact fun hbc => h (hbc ▸ hc)

theorem unescapePiece_escapeStep (s : List Char) (hbs : '\\' ∉ s) :
    unescapePiece (escapeStep s) = s := by
  induction s with
  | nil => rfl
  | cons c cs ih =>
    have hbs' : '\\' ∉ cs := fun h => hbs (List.mem_cons_of_mem _ h)
    have hcbs : c ≠ '\\' := fun h => hbs (h ▸ List.mem_cons_self c cs)
    by_cases hc : c = ':'
    · subst hc
      rw [show escapeStep (':' :: cs) = '\\' :: ':' :: escapeStep cs from by
            simp [escapeStep]]
      rw [show unescapePiece ('\\' :: ':' :: escapeStep cs)
            = ':' :: unescapePiece (escapeStep cs) from by
            simp [unescapePiece, List.filter]]
      rw [ih hbs']
    · rw [show escapeStep (c :: cs) = c :: escapeStep cs from by simp [escapeStep, hc]]
      rw [show unescapePiece (c :: escapeStep cs) = c :: unescapePiece (escapeStep cs)
            from by simp [unescapePiece, List.filter, hcbs]]
      rw [ih hbs']

theorem digitChar_range (d : Nat) (h : d < 10) :
    48 ≤ (digitChar d).toNat ∧ (digitChar d).toNat ≤ 57 := by
  interval_cases d <;> decide

theorem natCharsAux_range (fuel n : Nat) (c : Char) (h : c ∈ natCharsAux fuel n) :
    48 ≤ c.toNat ∧ c.toNat ≤ 57 := by
  induction fuel generalizing n with
  | zero => simp [natCharsAux] at h
  | succ fuel ih =>
    simp only [natCharsAux] at h
    split at h
    · next hlt =>
      simp at h
      exact h ▸ digitChar_range n hlt
    · rcases List.mem_append.mp h with h1 | h2
      · exact ih _ h1
      · simp at h2
        exact h2 ▸ digitChar_range _ (Nat.mod_lt _ (by norm_num))

theorem natChars_no_colon (n : Nat) : ':' ∉ natChars n := by
  intro h
  have h2 := natCharsAux_range _ _ _ h
  rw [show (':' : Char).toNat = 58 from by decide] at h2
  omega

theorem natChars_no_bs (n : Nat) : '\\' ∉ natChars n := by
  intro h
  have h2 := natCharsAux_range _ _ _ h
  rw [show ('\\' : Char).toNat = 92 from by decide] at h2
  omega

theorem escapeStep_id (s : List Char) (h : ':' ∉ s) : escapeStep s = s := by
  induction s with
  | nil => rfl
  | cons c cs ih =>
    have hc : c ≠ ':' := fun hc => h (hc ▸ List.mem_cons_self c cs)
    simp only [escapeStep, if_neg hc]
    rw [ih (fun hx => h (List.mem_cons_of_mem _ hx))]

theorem splitRaw_step_noescape (s rest : List Char) (hc : ':' ∉ s) (hbs : '\\' ∉ s) :
    splitRaw false (s ++ rest) = consHead s (splitRaw false rest) := by
  have := splitRaw_escapeStep s rest hbs
  rw [escapeStep_id s hc] at this
  exact this

end Esmond

namespace Esmond

/-- Splitting the trailing `freq:year` tail of a row key. -/
theorem splitRaw_tail (f y : Nat) :
    splitRaw false (natChars f ++ ':' :: natChars y) = [natChars f, natChars y] := by
  rw [splitRaw_step_noescape (natChars f) _ (natChars_no_colon f) (natChars_no_bs f)]
  rw [splitRaw_colon]
  have : natChars y ++ ([] : List Char) = natChars y := List.append_nil _
  rw [show splitRaw false (natChars y) = splitRaw false (natChars y ++ []) from by
        rw [List.append_nil]]
  rw [splitRaw_step_noescape (natChars y) [] (natChars_no_colon y) (natChars_no_bs y)]
  simp [splitRaw, consHead]

end Esmond

namespace Esmond

/-- C1, claim as frozen, refuted: a path step containing a literal backslash
does not survive the round trip — `_split_rowkey` strips every `'\'` from the
non-final pieces, so `["a\b"]` decodes to `["ab"]`. -/
theorem rowkey_roundtrip_cex :
    split_rowkey (get_rowkey [['a', '\\', 'b']] (some 30) (some 2012))
      ≠ [['a', '\\', 'b']] ++ [natChars 30, natChars 2012] := by
  decide

/-- C1 (amended): for every path whose steps contain no literal `'\'` (steps
containing `':'` are fine) and positive `freq` and `year`, decoding the
encoded row key recovers the path followed by the decimal representations of
`freq` and `year`. -/
theorem rowkey_roundtrip (path : List (List Char)) (f y : Nat)
    (hpath : ∀ s ∈ path, '\\' ∉ s) (hf : f ≠ 0) (hy : y ≠ 0) :
    split_rowkey (get_rowkey path (some f) (some y))
      = path ++ [natChars f, natChars y] := by
  unfold get_rowkey
  simp only [hf, hy, if_pos, ne_eq, not_false_eq_true, if_true]
  unfold split_rowkey escape_path
  rw [show ([natChars f] ++ [natChars y]) = [natChars f, natChars y] from rfl]
  rw [splitRaw_joinColon path [natChars f, natChars y] hpath (by simp)]
  rw [show joinColon [natChars f, natChars y] = natChars f ++ ':' :: natChars y
        from rfl]
  rw [splitRaw_tail]
  rw [show path.map escapeStep ++ [natChars f, natChars y]
        = (path.map escapeStep ++ [natChars f]) ++ [natChars y] from by
        simp]
  rw [unescapeInit_append_last]
  rw [List.map_append, List.map_map]
  rw [show (List.map unescapePiece [natChars f]) = [natChars f] from by
        simp [unescapePiece_id _ (natChars_no_bs f)]]
  rw [show path.map (unescapePiece ∘ escapeStep) = path from by
        rw [show (unescapePiece ∘ escapeStep) = fun s => unescapePiece (escapeStep s)
              from rfl]
        rw [List.map_congr_left (fun s hs => unescapePiece_escapeStep s (hpath s hs))]
        exact List.map_id path]
  simp

/-- Witness for C1 (amended) at a path whose step contains a literal `':'`. -/
theorem rowkey_roundtrip_witness :
    split_rowkey (get_rowkey [['a', ':', 'b'], ['c']] (some 30000) (some 2012))
      = [['a', ':', 'b'], ['c']] ++ [natChars 30000, natChars 2012] :=
  rowkey_roundtrip [['a', ':', 'b'], ['c']] 30000 2012 (by decide) (by decide)
    (by decide)

end Esmond

namespace Esmond

/-! ## UTC calendar years (`datetime.datetime.utcfromtimestamp(ms/1000.0).year`)

A non-negative JavaScript timestamp `ms` lies in the UTC year reached by
walking forward from 1970, consuming 365 or 366 days per year according to
the Gregorian leap rule.  `_get_row_keys` and `get_metadata` only need the
`.year` field of the datetime, so only the year computation is embedded. -/

/-- The Gregorian leap-year rule. -/
def isLeap (y : Nat) : Bool := (y % 4 == 0 && y % 100 != 0) || y % 400 == 0

def daysInYear (y : Nat) : Nat := if isLeap y then 366 else 365

/-- Walk forward from year `y`, consuming whole years out of the day count
`d`.  The fuel strictly exceeds `d`, which bounds the number of steps since
every step removes at least 365 days. -/
def yearFromDaysAux : Nat → Nat → Nat → Nat
  | 0, y, _ => y
  | fuel + 1, y, d =>
      if d < daysInYear y then y
      else yearFromDaysAux fuel (y + 1) (d - daysInYear y)

/-- UTC calendar year of a day count since the epoch 1970-01-01. -/
def yearFromDays (d : Nat) : Nat := yearFromDaysAux (d + 1) 1970 d

/-- UTC calendar year of a JavaScript (millisecond) timestamp:
`datetime.utcfromtimestamp(float(ms)/1000.0).year`. -/
def utcYear (ms : Nat) : Nat := yearFromDays (ms / 86400000)

theorem daysInYear_ge (y : Nat) : 365 ≤ daysInYear y := by
  unfold daysInYear
  split <;> omega

theorem yearFromDaysAux_fuel (f g y d : Nat) (hf : d < f) (hg : d < g) :
    yearFromDaysAux f y d = yearFromDaysAux g y d := by
  induction f generalizing g y d with
  | zero => omega
  | succ f ih =>
    cases g with
    | zero => omega
    | succ g =>
      simp only [yearFromDaysAux]
      split
      · rfl
      · next hlt =>
        have h365 := daysInYear_ge y
        exact ih _ _ _ (by omega) (by omega)

theorem yearFromDaysAux_le (f y d : Nat) : y ≤ yearFromDaysAux f y d := by
  induction f generalizing y d with
  | zero => simp [yearFromDaysAux]
  | succ f ih =>
    simp only [yearFromDaysAux]
    split
    · exact le_refl y
    · exact Nat.le_trans (Nat.le_succ y) (ih (y + 1) _)

theorem yearFromDaysAux_mono (f y d e : Nat) (hde : d ≤ e) (he : e < f) :
    yearFromDaysAux f y d ≤ yearFromDaysAux f y e := by
  induction f generalizing y d e with
  | zero => omega
  | succ f ih =>
    simp only [yearFromDaysAux]
    by_cases hd : d < daysInYear y
    · rw [if_pos hd]
      split
      · exact le_refl y
      · exact Nat.le_trans (Nat.le_succ y) (yearFromDaysAux_le _ _ _)
    · have h365 := daysInYear_ge y
      have hed : ¬ e < daysInYear y := by omega
      rw [if_neg hd, if_neg hed]
      exact ih _ _ _ (by omega) (by omega)

/-- `utcYear` is monotone: later timestamps lie in the same or a later UTC
calendar year. -/
theorem utcYear_mono (a b : Nat) (hab : a ≤ b) : utcYear a ≤ utcYear b := by
  unfold utcYear yearFromDays
  have hd : a / 86400000 ≤ b / 86400000 := Nat.div_le_div_right hab
  rw [yearFromDaysAux_fuel (a / 86400000 + 1) (b / 86400000 + 1) 1970 (a / 86400000)
        (by omega) (by omega)]
  exact yearFromDaysAux_mono _ _ _ _ hd (by omega)

/-- Strictly later years force strictly later timestamps. -/
theorem lt_of_utcYear_lt (a b : Nat) (h : utcYear a < utcYear b) : a < b := by
  by_contra hab
  exact absurd (utcYear_mono b a (by omega)) (by omega)

end Esmond

namespace Esmond

/-! ## Year-shard planning (`_get_row_keys`) -/

/-- `_get_row_keys(path, freq, ts_min, ts_max)`: one row key per UTC year
touched by the interval.  When the two years coincide a single key is built,
otherwise `range(year_start, year_finish+1)` is walked. -/
def get_row_keys (path : List (List Char)) (freq : Option Nat)
    (ts_min ts_max : Nat) : List (List Char) :=
  let year_start := utcYear ts_min
  let year_finish := utcYear ts_max
  if year_start ≠ year_finish then
    (List.range' year_start (year_finish + 1 - year_start)).map
      (fun year => get_rowkey path freq (some year))
  else
    [get_rowkey path freq (some year_start)]

/-- `_get_row_keys` always equals the map over the inclusive year range
(also in the equal-years fast path). -/
theorem get_row_keys_eq_range (path : List (List Char)) (freq : Option Nat)
    (ts_min ts_max : Nat) :
    get_row_keys path freq ts_min ts_max
      = (List.range' (utcYear ts_min) (utcYear ts_max + 1 - utcYear ts_min)).map
          (fun year => get_rowkey path freq (some year)) := by
  unfold get_row_keys
  by_cases h : utcYear ts_min = utcYear ts_max
  · rw [if_neg (by simpa using h)]
    rw [h, show utcYear ts_max + 1 - utcYear ts_max = 1 from by omega]
    rfl
  · rw [if_pos h]

end Esmond

namespace Esmond

/-- C5: for `ts_min ≤ ts_max` the queried row keys are exactly one key per
UTC calendar year from `year(ts_min)` through `year(ts_max)` inclusive, each
the encoded `(path, freq, year)`. -/
theorem row_keys_one_per_year (path : List (List Char)) (freq : Option Nat)
    (ts_min ts_max : Nat) (h : ts_min ≤ ts_max) :
    utcYear ts_min ≤ utcYear ts_max ∧
    get_row_keys path freq ts_min ts_max
      = (List.range' (utcYear ts_min) (utcYear ts_max + 1 - utcYear ts_min)).map
          (fun year => get_rowkey path freq (some year)) :=
  ⟨utcYear_mono ts_min ts_max h, get_row_keys_eq_range path freq ts_min ts_max⟩

/-- Witness for C5 spanning 1970 and 1971. -/
theorem row_keys_one_per_year_witness :
    utcYear 1000 ≤ utcYear 40000000000 ∧
    get_row_keys [['a']] (some 30000) 1000 40000000000
      = (List.range' (utcYear 1000) (utcYear 40000000000 + 1 - utcYear 1000)).map
          (fun year => get_rowkey [['a']] (some 30000) (some year)) :=
  row_keys_one_per_year [['a']] (some 30000) 1000 40000000000 (by norm_num)

end Esmond

namespace Esmond

/-! ## Raw-data store model and the metadata cold-load (`get_metadata`) -/

/-- `SEEK_BACK_THRESHOLD = 2592000000` — 30 days in milliseconds. -/
def SEEK_BACK_THRESHOLD : Nat := 2592000000

/-- `ts_to_jstime`: `calendar.timegm(ts.utctimetuple()) * 1000` truncates the
datetime to whole seconds, so a millisecond value maps to
`ms / 1000 * 1000`. -/
def jstime (ms : Nat) : Nat := ms / 1000 * 1000

/-- A `raw_data` row: long column names (ms timestamps) to JSON values,
modelled directly as integers (`json.dumps` / `json.loads` round-trip the
counter values).  A database maps row keys to rows; absent rows are `[]`. -/
abbrev RawDB : Type := List Char → List (Nat × Int)

/-- Association-list lookup on row keys (a Python dict read). -/
def alookup {β : Type} : List (List Char × β) → List Char → Option β
  | [], _ => none
  | (k, v) :: rest, key => if k = key then some v else alookup rest key

/-- Association-list update (a Python dict write: replace or append). -/
def aset {β : Type} : List (List Char × β) → List Char → β → List (List Char × β)
  | [], key, v => [(key, v)]
  | (k, w) :: rest, key, v =>
      if k = key then (key, v) :: rest else (k, w) :: aset rest key v

/-- One fold step of a reversed range slice with `column_count=1`: keep the
largest in-range column seen so far. -/
def latestStep (lo hi : Nat) (acc : Option (Nat × Int)) (c : Nat × Int) :
    Option (Nat × Int) :=
  if lo ≤ c.1 ∧ c.1 ≤ hi then
    match acc with
    | none => some c
    | some c0 => if c0.1 < c.1 then some c else some c0
  else acc

/-- The single most-recent column of a row inside `[lo, hi]`
(`column_start=hi, column_finish=lo, column_count=1, column_reversed=True`). -/
def latestInRange (cols : List (Nat × Int)) (lo hi : Nat) : Option (Nat × Int) :=
  cols.foldl (latestStep lo hi) none

/-- `multiget(keys, ..., column_count=1, column_reversed=True)`: for each
requested key in request order, the most-recent in-range column; keys with no
matching column are omitted (pycassa returns rows in the order the keys were
passed). -/
def multiget_rev1 (db : RawDB) (keys : List (List Char)) (lo hi : Nat) :
    List (List Char × (Nat × Int)) :=
  keys.filterMap (fun k => (latestInRange (db k) lo hi).map (fun c => (k, c)))

/-- All stored columns inside `[lo, hi]` across the given row shards, in
shard order. -/
def windowCols {V : Type} (db : List Char → List (Nat × V))
    (keys : List (List Char)) (lo hi : Nat) : List (Nat × V) :=
  (keys.map (fun k => (db k).filter (fun c => lo ≤ c.1 ∧ c.1 ≤ hi))).flatten

/-- Metadata document: the fields of the `Metadata` container
(`last_val`, `last_update`, `min_ts`, `freq`, `path`). -/
structure MetaDoc where
  last_val : Int
  last_update : Nat
  min_ts : Nat
  freq : Nat
  path : List (List Char)
deriving Repr, DecidableEq

/-- The metadata cache, a dict keyed by `get_meta_key()`. -/
abbrev MetaCache : Type := List (List Char × MetaDoc)

/-- The reversed `column_count=1` multiget issued by the cold-load path of
`get_metadata`: window `[ts_to_jstime()-1-SEEK_BACK_THRESHOLD,
ts_to_jstime()-1]`, one row key per year shard. -/
def coldLoadRet (db : RawDB) (path : List (List Char)) (freq ts : Nat) :
    List (List Char × (Nat × Int)) :=
  multiget_rev1 db
    (get_row_keys path (some freq) (jstime ts - 1 - SEEK_BACK_THRESHOLD)
      (jstime ts - 1))
    (jstime ts - 1 - SEEK_BACK_THRESHOLD) (jstime ts - 1)

/-- Seeding rule of the cold load: a found column yields
`Metadata(last_update=ts, last_val=val, min_ts=ts, ...)` from the stored
column, an empty result yields the current sample's values. -/
def seedFromRet (freq ts : Nat) (val : Int) (path : List (List Char)) :
    Option (List Char × (Nat × Int)) → MetaDoc
  | some kv =>
      { last_val := kv.2.2, last_update := kv.2.1, min_ts := kv.2.1,
        freq := freq, path := path }
  | none =>
      { last_val := val, last_update := ts, min_ts := ts,
        freq := freq, path := path }

/-- The metadata document built by the cold-load path: seed from the last row
returned (`ret.keys()[-1]`, its single column `ret[key].keys()[0]`), or from
the current sample when the multiget came back empty. -/
def coldLoadDoc (db : RawDB) (path : List (List Char)) (freq ts : Nat)
    (val : Int) : MetaDoc :=
  seedFromRet freq ts val path (coldLoadRet db path freq ts).getLast?

/-- `get_metadata(raw_data)` body: cache hit returns the cached document;
cache miss performs the cold load and installs the result via
`set_metadata` before returning it. -/
def get_metadata (db : RawDB) (cache : MetaCache) (path : List (List Char))
    (freq : Nat) (ts : Nat) (val : Int) : MetaCache × MetaDoc :=
  let mkey := get_rowkey path (some freq) none
  match alookup cache mkey with
  | some doc => (cache, doc)
  | none =>
      let meta_d := coldLoadDoc db path freq ts val
      (aset cache mkey meta_d, meta_d)

/-- The columns the cold-load window can see: every stored column of the
year shards spanning the 30 days before the sample. -/
def metaWindowCols (db : RawDB) (path : List (List Char)) (freq : Nat)
    (ts : Nat) : List (Nat × Int) :=
  windowCols db
    (get_row_keys path (some freq) (jstime ts - 1 - SEEK_BACK_THRESHOLD)
      (jstime ts - 1))
    (jstime ts - 1 - SEEK_BACK_THRESHOLD) (jstime ts - 1)

end Esmond

namespace Esmond

theorem alookup_aset_self {β : Type} (l : List (List Char × β)) (k : List Char)
    (v : β) : alookup (aset l k v) k = some v := by
  induction l with
  | nil => simp [aset, alookup]
  | cons p rest ih =>
    obtain ⟨k0, v0⟩ := p
    by_cases h : k0 = k
    · simp [aset, alookup, h]
    · simp [aset, alookup, h, ih]


theorem latestStep_none {lo hi : Nat} {acc : Option (Nat × Int)} {c : Nat × Int}
    (h : latestStep lo hi acc c = none) :
    acc = none ∧ ¬(lo ≤ c.1 ∧ c.1 ≤ hi) := by
  unfold latestStep at h
  by_cases hr : lo ≤ c.1 ∧ c.1 ≤ hi
  · rw [if_pos hr] at h
    exfalso
    cases acc with
    | none => simp at h
    | some c0 =>
      change (if c0.1 < c.1 then some c else some c0) = none at h
      split at h <;> simp at h
  · rw [if_neg hr] at h
    exact ⟨h, hr⟩

theorem latestStep_some_cases {lo hi : Nat} {acc : Option (Nat × Int)}
    {c r : Nat × Int} (h : latestStep lo hi acc c = some r) :
    (r = c ∧ lo ≤ c.1 ∧ c.1 ≤ hi) ∨ acc = some r := by
  unfold latestStep at h
  by_cases hr : lo ≤ c.1 ∧ c.1 ≤ hi
  · rw [if_pos hr] at h
    cases acc with
    | none => exact Or.inl ⟨(Option.some.inj h).symm, hr⟩
    | some c0 =>
      change (if c0.1 < c.1 then some c else some c0) = some r at h
      split at h
      · exact Or.inl ⟨(Option.some.inj h).symm, hr⟩
      · exact Or.inr h
  · rw [if_neg hr] at h
    exact Or.inr h

theorem latestStep_mono (lo hi : Nat) (a : Nat × Int) (c : Nat × Int) :
    ∃ r, latestStep lo hi (some a) c = some r ∧ a.1 ≤ r.1 := by
  unfold latestStep
  by_cases hr : lo ≤ c.1 ∧ c.1 ≤ hi
  · rw [if_pos hr]
    by_cases hlt : a.1 < c.1
    · exact ⟨c, by simp [hlt], le_of_lt hlt⟩
    · exact ⟨a, by simp [hlt], le_refl _⟩
  · rw [if_neg hr]
    exact ⟨a, rfl, le_refl _⟩

theorem latestStep_ge_c {lo hi : Nat} (acc : Option (Nat × Int)) {c : Nat × Int}
    (hr : lo ≤ c.1 ∧ c.1 ≤ hi) :
    ∃ r, latestStep lo hi acc c = some r ∧ c.1 ≤ r.1 := by
  unfold latestStep
  rw [if_pos hr]
  cases acc with
  | none => exact ⟨c, rfl, le_refl _⟩
  | some c0 =>
    by_cases hlt : c0.1 < c.1
    · exact ⟨c, by simp [hlt], le_refl _⟩
    · exact ⟨c0, by simp [hlt], by omega⟩

theorem latest_foldl_none {lo hi : Nat} (cols : List (Nat × Int)) :
    ∀ acc, cols.foldl (latestStep lo hi) acc = none →
      acc = none ∧ ∀ c ∈ cols, ¬(lo ≤ c.1 ∧ c.1 ≤ hi) := by
  induction cols with
  | nil => intro acc h; exact ⟨h, by simp⟩
  | cons c cs ih =>
    intro acc h
    rw [List.foldl_cons] at h
    obtain ⟨hstep, hall⟩ := ih _ h
    obtain ⟨hacc, hc⟩ := latestStep_none hstep
    refine ⟨hacc, ?_⟩
    intro x hx
    rcases List.mem_cons.mp hx with rfl | hx
    · exact hc
    · exact hall x hx

theorem latest_foldl_none_of {lo hi : Nat} (cols : List (Nat × Int)) :
    ∀ acc, acc = none → (∀ c ∈ cols, ¬(lo ≤ c.1 ∧ c.1 ≤ hi)) →
      cols.foldl (latestStep lo hi) acc = none := by
  induction cols with
  | nil => intro acc h _; simpa using h
  | cons c cs ih =>
    intro acc hacc hall
    subst hacc
    rw [List.foldl_cons]
    have hc : ¬(lo ≤ c.1 ∧ c.1 ≤ hi) := hall c (List.mem_cons_self c cs)
    have hstep : latestStep lo hi none c = none := by
      unfold latestStep
      rw [if_neg hc]
    rw [hstep]
    exact ih _ rfl (fun x hx => hall x (List.mem_cons_of_mem _ hx))

theorem latest_foldl_mem {lo hi : Nat} (cols : List (Nat × Int)) :
    ∀ acc r, cols.foldl (latestStep lo hi) acc = some r →
      acc = some r ∨ (r ∈ cols ∧ lo ≤ r.1 ∧ r.1 ≤ hi) := by
  induction cols with
  | nil => intro acc r h; exact Or.inl h
  | cons c cs ih =>
    intro acc r h
    rw [List.foldl_cons] at h
    rcases ih _ _ h with hacc | hmem
    · rcases latestStep_some_cases hacc with ⟨heq, hr⟩ | hacc'
      · subst heq
        exact Or.inr ⟨List.mem_cons_self _ cs, hr⟩
      · exact Or.inl hacc'
    · exact Or.inr ⟨List.mem_cons_of_mem _ hmem.1, hmem.2⟩

theorem latest_foldl_acc_le {lo hi : Nat} (cols : List (Nat × Int)) :
    ∀ a r, cols.foldl (latestStep lo hi) (some a) = some r → a.1 ≤ r.1 := by
  induction cols with
  | nil =>
    intro a r h
    rw [List.foldl_nil] at h
    exact le_of_eq (congrArg Prod.fst (Option.some.inj h))
  | cons c cs ih =>
    intro a r h
    rw [List.foldl_cons] at h
    obtain ⟨r', hr', har'⟩ := latestStep_mono lo hi a c
    rw [hr'] at h
    exact le_trans har' (ih _ _ h)

theorem latest_foldl_max {lo hi : Nat} (cols : List (Nat × Int)) :
    ∀ acc r, cols.foldl (latestStep lo hi) acc = some r →
      ∀ c ∈ cols, lo ≤ c.1 → c.1 ≤ hi → c.1 ≤ r.1 := by
  induction cols with
  | nil => intro acc r _ c hc; simp at hc
  | cons c cs ih =>
    intro acc r h x hx hlo hhi
    rw [List.foldl_cons] at h
    rcases List.mem_cons.mp hx with rfl | hx
    · obtain ⟨r', hr', hxr'⟩ := latestStep_ge_c acc ⟨hlo, hhi⟩
      rw [hr'] at h
      exact le_trans hxr' (latest_foldl_acc_le cs _ _ h)
    · exact ih _ _ h x hx hlo hhi

end Esmond

namespace Esmond

theorem mem_windowCols {V : Type} (db : List Char → List (Nat × V))
    (keys : List (List Char)) (lo hi : Nat) (c : Nat × V) :
    c ∈ windowCols db keys lo hi ↔
      ∃ k ∈ keys, c ∈ db k ∧ lo ≤ c.1 ∧ c.1 ≤ hi := by
  unfold windowCols
  rw [List.mem_flatten]
  constructor
  · rintro ⟨l, hl, hc⟩
    obtain ⟨k, hk, rfl⟩ := List.mem_map.mp hl
    obtain ⟨hmem, hp⟩ := List.mem_filter.mp hc
    simp only [decide_eq_true_eq] at hp
    exact ⟨k, hk, hmem, hp⟩
  · rintro ⟨k, hk, hmem, hp⟩
    refine ⟨(db k).filter (fun c => lo ≤ c.1 ∧ c.1 ≤ hi), List.mem_map_of_mem _ hk, ?_⟩
    rw [List.mem_filter]
    exact ⟨hmem, by simpa using hp⟩

/-- Scanning the ascending year shards with a reversed 1-column multiget and
taking the last returned row yields the globally most-recent in-window column
(provided every shard only holds columns of its own year). -/
theorem scan_shards (db : RawDB) (rk : Nat → List Char) (lo hi : Nat)
    (hdb : ∀ y t v, (t, v) ∈ db (rk y) → utcYear t = y) :
    ∀ n a,
    ((multiget_rev1 db ((List.range' a n).map rk) lo hi).getLast? = none →
        windowCols db ((List.range' a n).map rk) lo hi = []) ∧
    (∀ k t v,
      (multiget_rev1 db ((List.range' a n).map rk) lo hi).getLast? = some (k, (t, v)) →
      (t, v) ∈ windowCols db ((List.range' a n).map rk) lo hi ∧
      ∀ c ∈ windowCols db ((List.range' a n).map rk) lo hi, c.1 ≤ t) := by
  intro n
  induction n with
  | zero =>
    intro a
    constructor
    · intro _
      rfl
    · intro k t v h
      simp [multiget_rev1] at h
  | succ n ih =>
    intro a
    rw [List.range'_succ]
    have hkeys : (a :: List.range' (a + 1) n).map rk
        = rk a :: (List.range' (a + 1) n).map rk := rfl
    rw [hkeys]
    have hwc : windowCols db (rk a :: (List.range' (a + 1) n).map rk) lo hi
        = (db (rk a)).filter (fun c => lo ≤ c.1 ∧ c.1 ≤ hi)
            ++ windowCols db ((List.range' (a + 1) n).map rk) lo hi := by
      unfold windowCols
      rw [List.map_cons, List.flatten_cons]
    -- membership in the tail window forces a strictly later year
    have htail : ∀ t v, (t, v) ∈ windowCols db ((List.range' (a + 1) n).map rk) lo hi →
        a + 1 ≤ utcYear t := by
      intro t v hmem
      obtain ⟨k, hk, hdbmem, _⟩ := (mem_windowCols db _ lo hi (t, v)).mp hmem
      obtain ⟨y, hy, rfl⟩ := List.mem_map.mp hk
      obtain ⟨i, _, rfl⟩ := List.mem_range'.mp hy
      have := hdb _ _ _ hdbmem
      omega
    have hhead : ∀ c ∈ (db (rk a)).filter (fun c => lo ≤ c.1 ∧ c.1 ≤ hi),
        utcYear c.1 = a := by
      intro c hc
      obtain ⟨hmem, _⟩ := List.mem_filter.mp hc
      exact hdb a c.1 c.2 (by simpa using hmem)
    cases hl : latestInRange (db (rk a)) lo hi with
    | none =>
      have hmr : multiget_rev1 db (rk a :: (List.range' (a + 1) n).map rk) lo hi
          = multiget_rev1 db ((List.range' (a + 1) n).map rk) lo hi := by
        unfold multiget_rev1
        rw [List.filterMap_cons, hl]
        rfl
      have hheadnil : (db (rk a)).filter (fun c => lo ≤ c.1 ∧ c.1 ≤ hi) = [] := by
        rw [List.filter_eq_nil_iff]
        intro c hc
        have := (latest_foldl_none (db (rk a)) none hl).2 c hc
        simpa using this
      rw [hmr, hwc, hheadnil, List.nil_append]
      exact ih (a + 1)
    | some c0 =>
      have hmr : multiget_rev1 db (rk a :: (List.range' (a + 1) n).map rk) lo hi
          = (rk a, c0) :: multiget_rev1 db ((List.range' (a + 1) n).map rk) lo hi := by
        unfold multiget_rev1
        rw [List.filterMap_cons, hl]
        rfl
      rw [hmr, hwc]
      have hc0mem : c0 ∈ db (rk a) ∧ lo ≤ c0.1 ∧ c0.1 ≤ hi := by
        rcases latest_foldl_mem (db (rk a)) none c0 hl with h | h
        · exact Option.noConfusion h
        · exact h
      have hc0max : ∀ c ∈ db (rk a), lo ≤ c.1 → c.1 ≤ hi → c.1 ≤ c0.1 :=
        latest_foldl_max (db (rk a)) none c0 hl
      cases hmr' : multiget_rev1 db ((List.range' (a + 1) n).map rk) lo hi with
      | nil =>
        have hwcnil : windowCols db ((List.range' (a + 1) n).map rk) lo hi = [] :=
          (ih (a + 1)).1 (by rw [hmr']; rfl)
        constructor
        · intro h
          simp at h
        · intro k t v h
          rw [show ([(rk a, c0)] : List (List Char × (Nat × Int))).getLast?
                = some (rk a, c0) from rfl] at h
          have hpair : (rk a, c0) = (k, (t, v)) := Option.some.inj h
          have hc : c0 = (t, v) := congrArg Prod.snd hpair
          constructor
          · rw [List.mem_append]
            left
            rw [List.mem_filter]
            refine ⟨by rw [← hc]; exact hc0mem.1, ?_⟩
            rw [← hc]
            simpa using hc0mem.2
          · intro c hcmem
            rw [hwcnil, List.append_nil] at hcmem
            obtain ⟨hmem, hp⟩ := List.mem_filter.mp hcmem
            simp only [decide_eq_true_eq] at hp
            have hle := hc0max c hmem hp.1 hp.2
            have : c0.1 = t := congrArg Prod.fst (congrArg Prod.snd hpair)
            omega
      | cons p ps =>
        constructor
        · intro h
          rw [List.getLast?_cons_cons, List.getLast?_eq_none_iff] at h
          exact absurd h (by simp)
        · intro k t v h
          rw [List.getLast?_cons_cons] at h
          have hih := (ih (a + 1)).2 k t v (by rw [hmr']; exact h)
          obtain ⟨hmem, hmax⟩ := hih
          constructor
          · rw [List.mem_append]
            right
            exact hmem
          · intro c hcmem
            rw [List.mem_append] at hcmem
            rcases hcmem with hcl | hcr
            · -- head-shard columns are a full year older
              have hy : utcYear c.1 = a := hhead c hcl
              have ht : a + 1 ≤ utcYear t := htail t v hmem
              have : c.1 < t := lt_of_utcYear_lt c.1 t (by omega)
              omega
            · exact hmax c hcr

end Esmond

namespace Esmond

theorem nodup_fst_eq {l : List (Nat × Int)} (h : (l.map Prod.fst).Nodup)
    {t : Nat} {v v' : Int} (h1 : (t, v) ∈ l) (h2 : (t, v') ∈ l) : v = v' := by
  induction l with
  | nil => simp at h1
  | cons c cs ih =>
    rw [List.map_cons, List.nodup_cons] at h
    rcases List.mem_cons.mp h1 with he1 | h1'
    · rcases List.mem_cons.mp h2 with he2 | h2'
      · rw [← he1] at he2
        exact (Prod.mk.injEq .. ▸ he2).2.symm
      · exfalso
        apply h.1
        have h2m := List.mem_map_of_mem Prod.fst h2'
        rw [← he1]
        exact h2m
    · rcases List.mem_cons.mp h2 with he2 | h2'
      · exfalso
        apply h.1
        have h1m := List.mem_map_of_mem Prod.fst h1'
        rw [← he2]
        exact h1m
      · exact ih h.2 h1' h2'

/-- C3: on a metadata-cache miss, `get_metadata` installs the record it
returns in the cache, and that record is seeded from the single most-recent
raw column inside the 30-day window across year shards when one exists
(`last_val`, `last_update`, `min_ts` from the stored column), otherwise from
the current sample itself.  The hypotheses state the sample lies after the
30-day threshold and that each year shard holds columns of its own year
exactly once. -/
theorem metadata_cold_load
    (db : RawDB) (cache : MetaCache) (path : List (List Char))
    (freq ts : Nat) (val : Int)
    (hts : SEEK_BACK_THRESHOLD + 1 ≤ jstime ts)
    (hmiss : alookup cache (get_rowkey path (some freq) none) = none)
    (hdb : ∀ y t v, (t, v) ∈ db (get_rowkey path (some freq) (some y)) →
        utcYear t = y)
    (hnd : ∀ y, ((db (get_rowkey path (some freq) (some y))).map Prod.fst).Nodup) :
    alookup (get_metadata db cache path freq ts val).1
        (get_rowkey path (some freq) none)
      = some (get_metadata db cache path freq ts val).2 ∧
    (metaWindowCols db path freq ts = [] →
        (get_metadata db cache path freq ts val).2
          = ⟨val, ts, ts, freq, path⟩) ∧
    (∀ t v, (t, v) ∈ metaWindowCols db path freq ts →
        (∀ c ∈ metaWindowCols db path freq ts, c.1 ≤ t) →
        (get_metadata db cache path freq ts val).2 = ⟨v, t, t, freq, path⟩) := by
  have hgm : get_metadata db cache path freq ts val
      = (aset cache (get_rowkey path (some freq) none)
          (coldLoadDoc db path freq ts val), coldLoadDoc db path freq ts val) := by
    unfold get_metadata
    simp only [hmiss]
  have hscan := scan_shards db
      (fun year => get_rowkey path (some freq) (some year))
      (jstime ts - 1 - SEEK_BACK_THRESHOLD) (jstime ts - 1) hdb
      (utcYear (jstime ts - 1) + 1 - utcYear (jstime ts - 1 - SEEK_BACK_THRESHOLD))
      (utcYear (jstime ts - 1 - SEEK_BACK_THRESHOLD))
  have hret : coldLoadRet db path freq ts
      = multiget_rev1 db
          ((List.range' (utcYear (jstime ts - 1 - SEEK_BACK_THRESHOLD))
              (utcYear (jstime ts - 1) + 1
                - utcYear (jstime ts - 1 - SEEK_BACK_THRESHOLD))).map
            (fun year => get_rowkey path (some freq) (some year)))
          (jstime ts - 1 - SEEK_BACK_THRESHOLD) (jstime ts - 1) := by
    unfold coldLoadRet
    rw [get_row_keys_eq_range]
  have hmw : metaWindowCols db path freq ts
      = windowCols db
          ((List.range' (utcYear (jstime ts - 1 - SEEK_BACK_THRESHOLD))
              (utcYear (jstime ts - 1) + 1
                - utcYear (jstime ts - 1 - SEEK_BACK_THRESHOLD))).map
            (fun year => get_rowkey path (some freq) (some year)))
          (jstime ts - 1 - SEEK_BACK_THRESHOLD) (jstime ts - 1) := by
    unfold metaWindowCols
    rw [get_row_keys_eq_range]
  refine ⟨?_, ?_, ?_⟩
  · rw [hgm]
    exact alookup_aset_self cache _ _
  · intro hw
    rw [hgm]
    cases hg : (coldLoadRet db path freq ts).getLast? with
    | none =>
      show coldLoadDoc db path freq ts val = _
      unfold coldLoadDoc
      rw [hg]
      rfl
    | some kv =>
      exfalso
      obtain ⟨k, t, v⟩ := kv
      rw [hret] at hg
      have hmem := (hscan.2 k t v hg).1
      rw [hmw] at hw
      rw [hw] at hmem
      simp at hmem
  · intro t v hmem hmax
    rw [hgm]
    cases hg : (coldLoadRet db path freq ts).getLast? with
    | none =>
      exfalso
      have hg' := hg
      rw [hret] at hg'
      have hwc := hscan.1 hg'
      rw [hmw, hwc] at hmem
      simp at hmem
    | some kv =>
      obtain ⟨k, t', v'⟩ := kv
      have hg0 := hg
      rw [hret] at hg
      obtain ⟨hmem', hmax'⟩ := hscan.2 k t' v' hg
      rw [hmw] at hmem hmax
      have h1 : t' ≤ t := hmax (t', v') hmem'
      have h2 : t ≤ t' := hmax' (t, v) hmem
      have ht : t = t' := le_antisymm h2 h1
      subst ht
      obtain ⟨k1, hk1, hm1, hr1⟩ := (mem_windowCols db _ _ _ (t, v)).mp hmem
      obtain ⟨k2, hk2, hm2, hr2⟩ := (mem_windowCols db _ _ _ (t, v')).mp hmem'
      obtain ⟨y1, hy1, rfl⟩ := List.mem_map.mp hk1
      obtain ⟨y2, hy2, rfl⟩ := List.mem_map.mp hk2
      have hyy1 : utcYear t = y1 := hdb _ _ _ hm1
      have hyy2 : utcYear t = y2 := hdb _ _ _ hm2
      have hy12 : y1 = y2 := by omega
      subst hy12
      have hv : v = v' := nodup_fst_eq (hnd y1) hm1 hm2
      show coldLoadDoc db path freq ts val = _
      unfold coldLoadDoc
      rw [hg0, ← hv]
      rfl

end Esmond

namespace Esmond

theorem windowCols_empty_db (keys : List (List Char)) (lo hi : Nat) :
    windowCols (fun _ => ([] : List (Nat × Int))) keys lo hi = [] := by
  induction keys with
  | nil => rfl
  | cons k ks ih =>
    unfold windowCols at *
    rw [List.map_cons, List.flatten_cons, ih]
    rfl

/-- Witness for C3: empty store, empty cache — the metadata is seeded from
the incoming sample and installed in the cache. -/
theorem metadata_cold_load_witness :
    alookup (get_metadata (fun _ => []) [] [['a']] 30000 2593000000 7).1
        (get_rowkey [['a']] (some 30000) none)
      = some (get_metadata (fun _ => []) [] [['a']] 30000 2593000000 7).2 ∧
    (get_metadata (fun _ => []) [] [['a']] 30000 2593000000 7).2
      = ⟨7, 2593000000, 2593000000, 30000, [['a']]⟩ := by
  have h := metadata_cold_load (fun _ => []) [] [['a']] 30000 2593000000 7
      (by decide) rfl
      (fun y t v hm => absurd hm (List.not_mem_nil _))
      (fun y => by simp)
  exact ⟨h.1, h.2.1 (by
    unfold metaWindowCols
    exact windowCols_empty_db _ _ _)⟩

end Esmond

namespace Esmond

/-! ## Stat-aggregation cache (`get_agg_from_cache`, `update_agg_cache`,
`update_stat_aggregation`) -/

/-- A `stat_aggregations` super column: `{min, max, min_ts, max_ts}`. -/
structure StatEntry where
  min : Int
  max : Int
  min_ts : Nat
  max_ts : Nat
deriving Repr, DecidableEq

/-- The in-memory aggregation cache:
`cache[row_key][timestamp_of_agg_bin] = {min, max, min_ts, max_ts}`. -/
abbrev AggCache : Type := List (List Char × List (Nat × StatEntry))

/-- The `stat_aggregations` column family, for the one restart-seed point
read: `(row key, super column name) → stored entry`. -/
abbrev StatDB : Type := List Char → Nat → Option StatEntry

/-- Bin-lookup on an aggregation-cache row. -/
def blookup : List (Nat × StatEntry) → Nat → Option StatEntry
  | [], _ => none
  | (t, e) :: rest, ts => if t = ts then some e else blookup rest ts

/-- `AggregationBin.get_key()`: `get_rowkey(path, freq, ts.year)`. -/
def agg_get_key (path : List (List Char)) (freq : Nat) (aggTs : Nat) :
    List Char :=
  get_rowkey path (some freq) (some (utcYear aggTs))

/-- Python truthiness of `self.aggregation_cache.get(key, None)`: falsy when
the row key is absent or maps to an empty dict. -/
def rowFalsy : Option (List (Nat × StatEntry)) → Bool
  | none => true
  | some row => row.isEmpty

/-- `get_agg_from_cache(agg, raw_data)`.  `agg` is built by the caller with
`val = raw_data.val`; `binTs = agg.ts_to_jstime()` and
`rawTs = raw_data.ts_to_jstime()`.  If the row key is falsy in the cache, the
row is reset to `{}` and a point read of the stat column family may seed the
current bin (restart recovery).  If the current bin is then still missing,
the whole row is reset again and seeded from the sample, and `None` is
returned so the caller issues the initial four-field insert; otherwise the
cached entry is returned. -/
def get_agg_from_cache (db : StatDB) (cache : AggCache)
    (path : List (List Char)) (freq : Nat) (aggTs : Nat) (val : Int)
    (rawTs : Nat) : AggCache × Option StatEntry :=
  let key := agg_get_key path freq aggTs
  let binTs := jstime aggTs
  let cache1 :=
    if rowFalsy (alookup cache key) then
      match db key binTs with
      | some looked => aset cache key [(binTs, looked)]
      | none => aset cache key []
    else cache
  let row := (alookup cache1 key).getD []
  match blookup row binTs with
  | none =>
      (aset cache1 key
        [(binTs, ⟨val, val, jstime rawTs, jstime rawTs⟩)], none)
  | some entry => (cache1, some entry)

/-- `update_agg_cache(agg, raw_data, minmax)`: overwrite the `min`/`max`
field (and its `*_ts`) of the cached entry for the current bin. -/
def update_agg_cache (cache : AggCache) (key : List Char) (binTs : Nat)
    (isMax : Bool) (val : Int) (rawTs : Nat) : AggCache :=
  let row := (alookup cache key).getD []
  aset cache key
    (row.map (fun te =>
      if te.1 = binTs then
        (te.1,
          if isMax then { te.2 with max := val, max_ts := jstime rawTs }
          else { te.2 with min := val, min_ts := jstime rawTs })
      else te))

/-- A write to the stat column family: row key, super column (bin) name, and
the sub-column fields in source order. -/
abbrev StatWrite : Type := List Char × Nat × List (String × Int)

/-- `update_stat_aggregation(raw_data, agg_ts, freq)`: consult the cache; if
no entry is returned, insert all four fields initialized from the sample; if
`val` exceeds the cached max, update the cache and insert `{max, max_ts}`; if
`val` undercuts the cached min, update the cache and insert `{min, min_ts}`;
otherwise issue no write.  Returns the new cache, the writes issued, and the
`updated` flag. -/
def update_stat_aggregation (db : StatDB) (cache : AggCache)
    (path : List (List Char)) (freq : Nat) (aggTs : Nat) (val : Int)
    (rawTs : Nat) : AggCache × List StatWrite × Bool :=
  let key := agg_get_key path freq aggTs
  let binTs := jstime aggTs
  let res := get_agg_from_cache db cache path freq aggTs val rawTs
  match res.2 with
  | none =>
      (res.1,
       [(key, binTs,
         [("min", val), ("max", val),
          ("min_ts", (jstime rawTs : Int)), ("max_ts", (jstime rawTs : Int))])],
       true)
  | some ret =>
      if val > ret.max then
        (update_agg_cache res.1 key binTs true val rawTs,
         [(key, binTs, [("max", val), ("max_ts", (jstime rawTs : Int))])],
         true)
      else if val < ret.min then
        (update_agg_cache res.1 key binTs false val rawTs,
         [(key, binTs, [("min", val), ("min_ts", (jstime rawTs : Int))])],
         true)
      else (res.1, [], false)

/-- Entry of the aggregation cache for a given row key and bin. -/
def cacheBin (cache : AggCache) (key : List Char) (binTs : Nat) :
    Option StatEntry :=
  match alookup cache key with
  | none => none
  | some row => blookup row binTs

end Esmond

namespace Esmond

theorem blookup_isEmpty_false {row : List (Nat × StatEntry)} {ts : Nat}
    {e : StatEntry} (h : blookup row ts = some e) : row.isEmpty = false := by
  cases row with
  | nil => simp [blookup] at h
  | cons a l => rfl

/-- Cache hit for the current bin: no store read, nothing modified. -/
theorem gafc_hit (db : StatDB) (cache : AggCache) (path : List (List Char))
    (freq aggTs : Nat) (val : Int) (rawTs : Nat) (row : List (Nat × StatEntry))
    (e : StatEntry)
    (hrow : alookup cache (agg_get_key path freq aggTs) = some row)
    (hbin : blookup row (jstime aggTs) = some e) :
    get_agg_from_cache db cache path freq aggTs val rawTs = (cache, some e) := by
  have hne := blookup_isEmpty_false hbin
  unfold get_agg_from_cache
  simp only [hrow, rowFalsy, hne, Bool.false_eq_true, if_false, Option.getD, hbin]

/-- Row key cached (non-empty) but the current bin absent: the row is reset
and reseeded from the sample; `none` is returned.  No store read occurs. -/
theorem gafc_newbin (db : StatDB) (cache : AggCache) (path : List (List Char))
    (freq aggTs : Nat) (val : Int) (rawTs : Nat) (row : List (Nat × StatEntry))
    (hrow : alookup cache (agg_get_key path freq aggTs) = some row)
    (hne : row.isEmpty = false)
    (hbin : blookup row (jstime aggTs) = none) :
    get_agg_from_cache db cache path freq aggTs val rawTs
      = (aset cache (agg_get_key path freq aggTs)
          [(jstime aggTs, ⟨val, val, jstime rawTs, jstime rawTs⟩)], none) := by
  unfold get_agg_from_cache
  simp only [hrow, rowFalsy, hne, Bool.false_eq_true, if_false, Option.getD, hbin]

/-- Row key absent (or empty) and nothing stored for the bin: the cache is
seeded from the sample and `none` is returned. -/
theorem gafc_coldmiss (db : StatDB) (cache : AggCache) (path : List (List Char))
    (freq aggTs : Nat) (val : Int) (rawTs : Nat)
    (hfal : rowFalsy (alookup cache (agg_get_key path freq aggTs)) = true)
    (hdb : db (agg_get_key path freq aggTs) (jstime aggTs) = none) :
    get_agg_from_cache db cache path freq aggTs val rawTs
      = (aset (aset cache (agg_get_key path freq aggTs) [])
          (agg_get_key path freq aggTs)
          [(jstime aggTs, ⟨val, val, jstime rawTs, jstime rawTs⟩)], none) := by
  unfold get_agg_from_cache
  simp only [hfal, if_true, hdb]
  rw [alookup_aset_self]
  simp only [Option.getD, blookup]

/-- Row key absent (or empty) but the stat table holds the bin (restart):
the cache is seeded from the store and the stored entry is returned. -/
theorem gafc_restart (db : StatDB) (cache : AggCache) (path : List (List Char))
    (freq aggTs : Nat) (val : Int) (rawTs : Nat) (e : StatEntry)
    (hfal : rowFalsy (alookup cache (agg_get_key path freq aggTs)) = true)
    (hdb : db (agg_get_key path freq aggTs) (jstime aggTs) = some e) :
    get_agg_from_cache db cache path freq aggTs val rawTs
      = (aset cache (agg_get_key path freq aggTs) [(jstime aggTs, e)], some e) := by
  unfold get_agg_from_cache
  simp only [hfal, if_true, hdb]
  rw [alookup_aset_self]
  simp [Option.getD, blookup]

theorem blookup_map_update (row : List (Nat × StatEntry)) (binTs : Nat)
    (g : StatEntry → StatEntry) (e : StatEntry)
    (h : blookup row binTs = some e) :
    blookup (row.map (fun te => if te.1 = binTs then (te.1, g te.2) else te))
        binTs = some (g e) := by
  induction row with
  | nil => simp [blookup] at h
  | cons te rest ih =>
    by_cases ht : te.1 = binTs
    · rw [show blookup (te :: rest) binTs = some te.2 from by
            simp [blookup, ht]] at h
      rw [List.map_cons, if_pos ht]
      simp [blookup, ht, Option.some.inj h]
    · rw [show blookup (te :: rest) binTs = blookup rest binTs from by
            simp [blookup, ht]] at h
      rw [List.map_cons, if_neg ht]
      rw [show blookup (te :: List.map _ rest) binTs
            = blookup (List.map (fun te => if te.1 = binTs then (te.1, g te.2) else te) rest) binTs from by
            simp [blookup, ht]]
      exact ih h

theorem cacheBin_update_agg_cache (cache : AggCache) (key : List Char)
    (binTs : Nat) (isMax : Bool) (val : Int) (rawTs : Nat) (e : StatEntry)
    (h : cacheBin cache key binTs = some e) :
    cacheBin (update_agg_cache cache key binTs isMax val rawTs) key binTs
      = some (if isMax then { e with max := val, max_ts := jstime rawTs }
              else { e with min := val, min_ts := jstime rawTs }) := by
  unfold cacheBin at h
  cases hrow : alookup cache key with
  | none => rw [hrow] at h; exact Option.noConfusion h
  | some row =>
    rw [hrow] at h
    unfold update_agg_cache cacheBin
    rw [hrow]
    simp only [Option.getD]
    rw [alookup_aset_self]
    by_cases him : isMax
    · subst him
      exact blookup_map_update row binTs
        (fun e => { e with max := val, max_ts := jstime rawTs }) e h
    · rw [show isMax = false from by simpa using him]
      exact blookup_map_update row binTs
        (fun e => { e with min := val, min_ts := jstime rawTs }) e h

end Esmond

namespace Esmond

/-- The initial four-field stat insert
`{'min': val, 'max': val, 'min_ts': ts, 'max_ts': ts}`. -/
def statFullWrite (key : List Char) (binTs : Nat) (val : Int) (rts : Nat) :
    StatWrite :=
  (key, binTs, [("min", val), ("max", val), ("min_ts", (rts : Int)),
    ("max_ts", (rts : Int))])

/-- The `{'max': val, 'max_ts': ts}` stat insert. -/
def statMaxWrite (key : List Char) (binTs : Nat) (val : Int) (rts : Nat) :
    StatWrite :=
  (key, binTs, [("max", val), ("max_ts", (rts : Int))])

/-- The `{'min': val, 'min_ts': ts}` stat insert. -/
def statMinWrite (key : List Char) (binTs : Nat) (val : Int) (rts : Nat) :
    StatWrite :=
  (key, binTs, [("min", val), ("min_ts", (rts : Int))])

/-- C2, claim as frozen, refuted at the restart case: with the aggregation
cache holding no entry for the current bin but the stat column family holding
one (here `{min 0, max 100}`), a sample with `val = 50` issues *no* write,
whereas the claim requires the four-field initializing write. -/
theorem stat_write_policy_cex :
    cacheBin ([] : AggCache) (agg_get_key [['a']] 3600000 0) (jstime 0) = none ∧
    (update_stat_aggregation
        (fun _ t => if t = 0 then some ⟨0, 100, 5, 6⟩ else none)
        [] [['a']] 3600000 0 50 500).2.1 = [] := by
  constructor
  · rfl
  · rfl

/-- C2 (amended): the stat-rollup write policy of `update_stat_aggregation`.
With a cached entry `e` (with `min ≤ max`) for the current bin: `val > e.max`
writes exactly `{max, max_ts}` and updates the cache; `val < e.min` writes
exactly `{min, min_ts}` and updates the cache; otherwise nothing is written
and the cache is untouched.  With no cached entry for the bin, the four-field
initializing write is issued — except that when the series row key is absent
from the cache and the stat table already holds the bin's super column
(restart), the cache is seeded from the store and the comparison rules apply
to the stored values instead. -/
theorem stat_write_policy (db : StatDB) (cache : AggCache)
    (path : List (List Char)) (freq aggTs : Nat) (val : Int) (rawTs : Nat) :
    (∀ e, cacheBin cache (agg_get_key path freq aggTs) (jstime aggTs) = some e →
      e.min ≤ e.max →
      (val > e.max →
        (update_stat_aggregation db cache path freq aggTs val rawTs).2.1
          = [statMaxWrite (agg_get_key path freq aggTs) (jstime aggTs) val
              (jstime rawTs)] ∧
        cacheBin (update_stat_aggregation db cache path freq aggTs val rawTs).1
            (agg_get_key path freq aggTs) (jstime aggTs)
          = some { e with max := val, max_ts := jstime rawTs }) ∧
      (val < e.min →
        (update_stat_aggregation db cache path freq aggTs val rawTs).2.1
          = [statMinWrite (agg_get_key path freq aggTs) (jstime aggTs) val
              (jstime rawTs)] ∧
        cacheBin (update_stat_aggregation db cache path freq aggTs val rawTs).1
            (agg_get_key path freq aggTs) (jstime aggTs)
          = some { e with min := val, min_ts := jstime rawTs }) ∧
      (e.min ≤ val → val ≤ e.max →
        (update_stat_aggregation db cache path freq aggTs val rawTs).2.1 = [] ∧
        (update_stat_aggregation db cache path freq aggTs val rawTs).1
          = cache)) ∧
    (cacheBin cache (agg_get_key path freq aggTs) (jstime aggTs) = none →
      rowFalsy (alookup cache (agg_get_key path freq aggTs)) = false →
      (update_stat_aggregation db cache path freq aggTs val rawTs).2.1
        = [statFullWrite (agg_get_key path freq aggTs) (jstime aggTs) val
            (jstime rawTs)]) ∧
    (rowFalsy (alookup cache (agg_get_key path freq aggTs)) = true →
      db (agg_get_key path freq aggTs) (jstime aggTs) = none →
      (update_stat_aggregation db cache path freq aggTs val rawTs).2.1
        = [statFullWrite (agg_get_key path freq aggTs) (jstime aggTs) val
            (jstime rawTs)]) ∧
    (∀ e, rowFalsy (alookup cache (agg_get_key path freq aggTs)) = true →
      db (agg_get_key path freq aggTs) (jstime aggTs) = some e →
      e.min ≤ e.max →
      (val > e.max →
        (update_stat_aggregation db cache path freq aggTs val rawTs).2.1
          = [statMaxWrite (agg_get_key path freq aggTs) (jstime aggTs) val
              (jstime rawTs)]) ∧
      (val < e.min →
        (update_stat_aggregation db cache path freq aggTs val rawTs).2.1
          = [statMinWrite (agg_get_key path freq aggTs) (jstime aggTs) val
              (jstime rawTs)]) ∧
      (e.min ≤ val → val ≤ e.max →
        (update_stat_aggregation db cache path freq aggTs val rawTs).2.1
          = [])) := by
  refine ⟨?_, ?_, ?_, ?_⟩
  · intro e he hwf
    have hb : ∃ row, alookup cache (agg_get_key path freq aggTs) = some row ∧
        blookup row (jstime aggTs) = some e := by
      unfold cacheBin at he
      cases hrow : alookup cache (agg_get_key path freq aggTs) with
      | none => rw [hrow] at he; exact Option.noConfusion he
      | some row => rw [hrow] at he; exact ⟨row, rfl, he⟩
    obtain ⟨row, hrow, hbin⟩ := hb
    have hg := gafc_hit db cache path freq aggTs val rawTs row e hrow hbin
    refine ⟨?_, ?_, ?_⟩
    · intro hmax
      unfold update_stat_aggregation
      simp only [hg, if_pos hmax]
      refine ⟨rfl, ?_⟩
      have := cacheBin_update_agg_cache cache (agg_get_key path freq aggTs)
          (jstime aggTs) true val rawTs e
          (by unfold cacheBin; rw [hrow]; exact hbin)
      simpa using this
    · intro hmin
      have hnmax : ¬ val > e.max := by omega
      unfold update_stat_aggregation
      simp only [hg, if_neg hnmax, if_pos hmin]
      refine ⟨rfl, ?_⟩
      have := cacheBin_update_agg_cache cache (agg_get_key path freq aggTs)
          (jstime aggTs) false val rawTs e
          (by unfold cacheBin; rw [hrow]; exact hbin)
      simpa using this
    · intro h1 h2
      have hnmax : ¬ val > e.max := by omega
      have hnmin : ¬ val < e.min := by omega
      unfold update_stat_aggregation
      simp only [hg, if_neg hnmax, if_neg hnmin]
      constructor <;> trivial
  · intro hnone hfal
    have hb : ∃ row, alookup cache (agg_get_key path freq aggTs) = some row ∧
        row.isEmpty = false ∧ blookup row (jstime aggTs) = none := by
      unfold cacheBin at hnone
      cases hrow : alookup cache (agg_get_key path freq aggTs) with
      | none => rw [hrow] at hfal; simp [rowFalsy] at hfal
      | some row =>
        rw [hrow] at hnone hfal
        exact ⟨row, rfl, by simpa [rowFalsy] using hfal, hnone⟩
    obtain ⟨row, hrow, hne, hbin⟩ := hb
    have hg := gafc_newbin db cache path freq aggTs val rawTs row hrow hne hbin
    unfold update_stat_aggregation
    simp only [hg]
    rfl
  · intro hfal hdb
    have hg := gafc_coldmiss db cache path freq aggTs val rawTs hfal hdb
    unfold update_stat_aggregation
    simp only [hg]
    rfl
  · intro e hfal hdb hwf
    have hg := gafc_restart db cache path freq aggTs val rawTs e hfal hdb
    refine ⟨?_, ?_, ?_⟩
    · intro hmax
      unfold update_stat_aggregation
      simp only [hg, if_pos hmax]
      rfl
    · intro hmin
      have hnmax : ¬ val > e.max := by omega
      unfold update_stat_aggregation
      simp only [hg, if_neg hnmax, if_pos hmin]
      rfl
    · intro h1 h2
      have hnmax : ¬ val > e.max := by omega
      have hnmin : ¬ val < e.min := by omega
      unfold update_stat_aggregation
      simp only [hg, if_neg hnmax, if_neg hnmin]

end Esmond

namespace Esmond

/-- Witness for C2 (amended): cached bin `{min 0, max 10}`, sample `val 50`
issues exactly the `{max, max_ts}` write and updates the cached max. -/
theorem stat_write_policy_witness :
    (update_stat_aggregation (fun _ _ => none)
        [(agg_get_key [['a']] 3600000 0, [(jstime 0, ⟨0, 10, 2, 3⟩)])]
        [['a']] 3600000 0 50 1500).2.1
      = [statMaxWrite (agg_get_key [['a']] 3600000 0) (jstime 0) 50
          (jstime 1500)] ∧
    cacheBin (update_stat_aggregation (fun _ _ => none)
        [(agg_get_key [['a']] 3600000 0, [(jstime 0, ⟨0, 10, 2, 3⟩)])]
        [['a']] 3600000 0 50 1500).1 (agg_get_key [['a']] 3600000 0) (jstime 0)
      = some ⟨0, 50, 2, jstime 1500⟩ :=
  ((stat_write_policy (fun _ _ => none)
      [(agg_get_key [['a']] 3600000 0, [(jstime 0, ⟨0, 10, 2, 3⟩)])]
      [['a']] 3600000 0 50 1500).1 ⟨0, 10, 2, 3⟩ (by decide) (by decide)).1
    (by decide)

theorem update_agg_single (c : AggCache) (key : List Char) (binTs : Nat)
    (isMax : Bool) (val : Int) (rawTs : Nat) (e0 : StatEntry)
    (h : alookup c key = some [(binTs, e0)]) :
    ∃ e, alookup (update_agg_cache c key binTs isMax val rawTs) key
      = some [(binTs, e)] := by
  unfold update_agg_cache
  rw [h]
  simp only [Option.getD, List.map_cons, List.map_nil, if_pos rfl]
  exact ⟨_, alookup_aset_self c key _⟩

/-- C9: after `get_agg_from_cache` (and hence after
`update_stat_aggregation`) the aggregation-cache entry for the series row key
holds exactly one bin — the current one.  Arriving at a different bin than
the cached one discards the prior entry.  The hypothesis is the
invariant itself for the pre-state (rows never hold more than one bin). -/
theorem agg_cache_single_bin (db : StatDB) (cache : AggCache)
    (path : List (List Char)) (freq aggTs : Nat) (val : Int) (rawTs : Nat)
    (hinv : ∀ row, alookup cache (agg_get_key path freq aggTs) = some row →
        row.length ≤ 1) :
    (∃ e, alookup (get_agg_from_cache db cache path freq aggTs val rawTs).1
        (agg_get_key path freq aggTs) = some [(jstime aggTs, e)]) ∧
    (∃ e, alookup (update_stat_aggregation db cache path freq aggTs val rawTs).1
        (agg_get_key path freq aggTs) = some [(jstime aggTs, e)]) := by
  have h1 : ∃ e, alookup (get_agg_from_cache db cache path freq aggTs val rawTs).1
      (agg_get_key path freq aggTs) = some [(jstime aggTs, e)] := by
    by_cases hfal : rowFalsy (alookup cache (agg_get_key path freq aggTs)) = true
    · cases hdb : db (agg_get_key path freq aggTs) (jstime aggTs) with
      | none =>
        rw [gafc_coldmiss db cache path freq aggTs val rawTs hfal hdb]
        exact ⟨_, alookup_aset_self _ _ _⟩
      | some e =>
        rw [gafc_restart db cache path freq aggTs val rawTs e hfal hdb]
        exact ⟨e, alookup_aset_self _ _ _⟩
    · have hrow : ∃ row, alookup cache (agg_get_key path freq aggTs) = some row ∧
          row.isEmpty = false := by
        cases h : alookup cache (agg_get_key path freq aggTs) with
        | none => rw [h] at hfal; simp [rowFalsy] at hfal
        | some row =>
          rw [h] at hfal
          exact ⟨row, rfl, by simpa [rowFalsy] using hfal⟩
      obtain ⟨row, hrow, hne⟩ := hrow
      have hlen := hinv row hrow
      have hsingle : ∃ t0 e0, row = [(t0, e0)] := by
        cases row with
        | nil => simp at hne
        | cons r0 rest =>
          cases rest with
          | nil => exact ⟨r0.1, r0.2, rfl⟩
          | cons a b => simp at hlen
      obtain ⟨t0, e0, rfl⟩ := hsingle
      by_cases ht : t0 = jstime aggTs
      · subst ht
        have hbin : blookup [(jstime aggTs, e0)] (jstime aggTs) = some e0 := by
          simp [blookup]
        rw [gafc_hit db cache path freq aggTs val rawTs [(jstime aggTs, e0)] e0
              hrow hbin]
        exact ⟨e0, hrow⟩
      · have hbin : blookup [(t0, e0)] (jstime aggTs) = none := by
          simp [blookup, ht]
        rw [gafc_newbin db cache path freq aggTs val rawTs [(t0, e0)] hrow hne hbin]
        exact ⟨_, alookup_aset_self _ _ _⟩
  refine ⟨h1, ?_⟩
  obtain ⟨e1, he1⟩ := h1
  unfold update_stat_aggregation
  cases hres : (get_agg_from_cache db cache path freq aggTs val rawTs).2 with
  | none =>
    simp only [hres]
    exact ⟨e1, he1⟩
  | some e =>
    simp only [hres]
    by_cases hmax : val > e.max
    · simp only [if_pos hmax]
      exact update_agg_single _ _ _ _ _ _ e1 he1
    · by_cases hmin : val < e.min
      · simp only [if_neg hmax, if_pos hmin]
        exact update_agg_single _ _ _ _ _ _ e1 he1
      · simp only [if_neg hmax, if_neg hmin]
        exact ⟨e1, he1⟩

end Esmond

namespace Esmond

/-- Witness for C9: a prior bin (`999000`) is cached; a sample for bin `0`
discards it and leaves exactly the current bin in the cache, both after
`get_agg_from_cache` and after `update_stat_aggregation`. -/
theorem agg_cache_single_bin_witness :
    (∃ e, alookup (get_agg_from_cache (fun _ _ => none)
        [(agg_get_key [['a']] 3600000 0, [(999000, ⟨1, 2, 3, 4⟩)])]
        [['a']] 3600000 0 7 500).1
        (agg_get_key [['a']] 3600000 0) = some [(jstime 0, e)]) ∧
    (∃ e, alookup (update_stat_aggregation (fun _ _ => none)
        [(agg_get_key [['a']] 3600000 0, [(999000, ⟨1, 2, 3, 4⟩)])]
        [['a']] 3600000 0 7 500).1
        (agg_get_key [['a']] 3600000 0) = some [(jstime 0, e)]) :=
  agg_cache_single_bin (fun _ _ => none)
    [(agg_get_key [['a']] 3600000 0, [(999000, ⟨1, 2, 3, 4⟩)])]
    [['a']] 3600000 0 7 500
    (by
      intro row h
      have heval : alookup
          [(agg_get_key [['a']] 3600000 0, [(999000, (⟨1, 2, 3, 4⟩ : StatEntry))])]
          (agg_get_key [['a']] 3600000 0)
          = some [(999000, (⟨1, 2, 3, 4⟩ : StatEntry))] := by
        unfold alookup
        rw [if_pos rfl]
      rw [heval] at h
      rw [← Option.some.inj h]
      decide)

end Esmond

namespace Esmond

/-! ## Query planner (`query_baserate_timerange`,
`query_aggregation_timerange`, `query_raw_data`) -/

/-- `AGG_TYPES = ['average', 'min', 'max', 'raw']`. -/
def AGG_TYPES : List String := ["average", "min", "max", "raw"]

/-- A `base_rates` super column: `{val: counter, is_valid: counter}`. -/
structure RateCol where
  val : Int
  is_valid : Int
deriving Repr, DecidableEq

/-- The `base_rates` column family. -/
abbrev RateDB : Type := List Char → List (Nat × RateCol)

/-- A `rate_aggregations` super column: sub-columns keyed by name (`'val'`
plus the base frequency rendered in decimal). -/
abbrev AggDB : Type := List Char → List (Nat × List (String × Int))

/-- A `stat_aggregations` super column as read by the query side: mandatory
`min`/`max` and optional `min_ts`/`max_ts` (`vv.get(..., None)`). -/
structure StatCol where
  min : Int
  max : Int
  min_ts : Option Int
  max_ts : Option Int
deriving Repr, DecidableEq

/-- The `stat_aggregations` column family as read by the query side. -/
abbrev StatRowDB : Type := List Char → List (Nat × StatCol)

/-- `multiget_count(keys, column_start, column_finish)` for one row: the
number of columns inside the range. -/
def countInRange {V : Type} (cols : List (Nat × V)) (lo hi : Nat) : Nat :=
  (cols.filter (fun c => lo ≤ c.1 ∧ c.1 ≤ hi)).length

/-- One row of a `multiget` range slice: the first `limit` columns inside
`[lo, hi]` in stored (ascending-timestamp) order. -/
def sliceCols {V : Type} (cols : List (Nat × V)) (lo hi limit : Nat) :
    List (Nat × V) :=
  ((cols.filter (fun c => lo ≤ c.1 ∧ c.1 ≤ hi)).take limit)

/-- `multiget(keys, column_start, column_finish, column_count)`: rows in
request order; keys with no matching column are omitted. -/
def multigetSlice {V : Type} (db : List Char → List (Nat × V))
    (keys : List (List Char)) (lo hi limit : Nat) :
    List (List Char × List (Nat × V)) :=
  keys.filterMap (fun k =>
    let cs := sliceCols (db k) lo hi limit
    if cs.isEmpty then none else some (k, cs))

/-- `cols = 0; for i in ret_count.keys(): cols += ret_count[i]` — the summed
per-shard counts of a `multiget_count`. -/
def sumCounts {V : Type} (db : List Char → List (Nat × V))
    (keys : List (List Char)) (lo hi : Nat) : Nat :=
  (keys.map (fun k => countInRange (db k) lo hi)).sum

/-- A row of `query_baserate_timerange` results:
`{'ts': .., 'val': .., 'is_valid': ..}`.  Counter-to-float conversion and the
division are modelled over `ℚ`. -/
structure BRResult where
  ts : Nat
  val : ℚ
  is_valid : Int
deriving Repr, DecidableEq

/-- `query_baserate_timerange(path, freq, ts_min, ts_max, cf, column_count)`:
when `column_count` is `None` a count query supplies `sum + 5` as the soft
limit; an invalid `cf` falls back to `'average'` (logged); a `None` freq is
replaced by `1000`; the divisor is `int(freq/1000)` for `'average'` (Python 2
floor division) and `1` for `'delta'`. -/
def query_baserate_timerange (db : RateDB) (path : List (List Char))
    (freq : Option Nat) (ts_min ts_max : Nat) (cf : String)
    (column_count : Option Nat) : List BRResult :=
  let keys := get_row_keys path freq ts_min ts_max
  let cols := match column_count with
    | some c => c
    | none => sumCounts db keys ts_min ts_max + 5
  let ret := multigetSlice db keys ts_min ts_max cols
  let cf1 := if cf ∉ ["average", "delta"] then "average" else cf
  let freqN := match freq with
    | none => 1000
    | some f => f
  let divisor : Nat := if cf1 = "average" then freqN / 1000 else 1
  (ret.map (fun kv => kv.2.map (fun c =>
    (⟨c.1, (c.2.val : ℚ) / (divisor : ℚ), c.2.is_valid⟩ : BRResult)))).flatten

/-- The sub-column scan `for kkk in vv.keys()`: the last `'val'` value, and
the last non-`'val'` key (the base frequency) with its value (the count). -/
def parseAggSuper (vv : List (String × Int)) :
    Option Int × Option String × Option Int :=
  vv.foldl (fun acc kv =>
    if kv.1 = "val" then (some kv.2, acc.2.1, acc.2.2)
    else (acc.1, some kv.1, some kv.2)) (none, none, none)

/-- Python `int(s)` on a decimal string (well-formed inputs only; the query
theorems only apply it to decimal sub-column names). -/
def parseNat (s : List Char) : Nat :=
  s.foldl (fun acc c => acc * 10 + (c.toNat - 48)) 0

/-- A row of `query_aggregation_timerange` results.  The `m_ts` field is only
populated by the min/max branch (`vv.get('min_ts'/'max_ts', None)`). -/
structure AggResult where
  ts : Nat
  val : ℚ
  cf : String
  m_ts : Option Int
deriving Repr, DecidableEq

/-- `query_aggregation_timerange(path, freq, ts_min, ts_max, cf,
column_count)`: invalid `cf` falls back to `'average'`; the average/raw
branch reads `rate_aggregations` (building an `AggregationBin` per super
column and using `AggregationBin.average = val / (count * (base_freq/1000.0))`
for `'average'`), the min/max branch reads `stat_aggregations`; each branch
computes its own `sum + 5` soft limit when `column_count` is `None`. -/
def query_aggregation_timerange (aggdb : AggDB) (statdb : StatRowDB)
    (path : List (List Char)) (freq : Option Nat) (ts_min ts_max : Nat)
    (cf : String) (column_count : Option Nat) : List AggResult :=
  let cf1 := if cf ∉ AGG_TYPES then "average" else cf
  if cf1 = "average" ∨ cf1 = "raw" then
    let keys := get_row_keys path freq ts_min ts_max
    let cols := match column_count with
      | some c => c
      | none => sumCounts aggdb keys ts_min ts_max + 5
    let ret := multigetSlice aggdb keys ts_min ts_max cols
    (ret.map (fun kv => kv.2.map (fun c =>
      let p := parseAggSuper c.2
      let v : Int := p.1.getD 0
      let base_freq : Nat := parseNat (p.2.1.getD "").data
      let count : Int := p.2.2.getD 0
      if cf1 = "average" then
        (⟨c.1, (v : ℚ) / ((count : ℚ) * ((base_freq : ℚ) / 1000)), cf1, none⟩
          : AggResult)
      else ⟨c.1, (v : ℚ), cf1, none⟩))).flatten
  else
    let keys := get_row_keys path freq ts_min ts_max
    let cols := match column_count with
      | some c => c
      | none => sumCounts statdb keys ts_min ts_max + 5
    let ret := multigetSlice statdb keys ts_min ts_max cols
    (ret.map (fun kv => kv.2.map (fun c =>
      if cf1 = "min" then
        (⟨c.1, (c.2.min : ℚ), cf1, c.2.min_ts⟩ : AggResult)
      else ⟨c.1, (c.2.max : ℚ), cf1, c.2.max_ts⟩))).flatten

/-- A row of `query_raw_data` results (`json.loads` of the stored value,
modelled directly as the integer). -/
structure RawResult where
  ts : Nat
  val : Int
deriving Repr, DecidableEq

/-- `query_raw_data(path, freq, ts_min, ts_max, column_count)`. -/
def query_raw_data (db : RawDB) (path : List (List Char)) (freq : Option Nat)
    (ts_min ts_max : Nat) (column_count : Option Nat) : List RawResult :=
  let keys := get_row_keys path freq ts_min ts_max
  let cols := match column_count with
    | some c => c
    | none => sumCounts db keys ts_min ts_max + 5
  let ret := multigetSlice db keys ts_min ts_max cols
  (ret.map (fun kv => kv.2.map (fun c =>
    (⟨c.1, c.2⟩ : RawResult)))).flatten

end Esmond

namespace Esmond

theorem count_le_sumCounts {V : Type} (db : List Char → List (Nat × V))
    (keys : List (List Char)) (lo hi : Nat) :
    ∀ k ∈ keys, countInRange (db k) lo hi ≤ sumCounts db keys lo hi + 5 := by
  intro k hk
  have hmem : countInRange (db k) lo hi
      ∈ keys.map (fun k => countInRange (db k) lo hi) :=
    List.mem_map_of_mem _ hk
  have := List.single_le_sum (fun x _ => Nat.zero_le x) _ hmem
  unfold sumCounts
  omega

/-- With a limit at least every per-shard count, the range slice returns all
in-range columns of every shard, and flattening the per-row results visits
exactly the window's columns in shard order. -/
theorem flatten_multigetSlice {V W : Type} (db : List Char → List (Nat × V))
    (keys : List (List Char)) (lo hi L : Nat) (f : Nat × V → W)
    (hL : ∀ k ∈ keys, countInRange (db k) lo hi ≤ L) :
    ((multigetSlice db keys lo hi L).map (fun kv => kv.2.map f)).flatten
      = (windowCols db keys lo hi).map f := by
  induction keys with
  | nil => rfl
  | cons k ks ih =>
    have hk := hL k (List.mem_cons_self k ks)
    have htake : sliceCols (db k) lo hi L
        = (db k).filter (fun c => lo ≤ c.1 ∧ c.1 ≤ hi) := by
      unfold sliceCols
      exact List.take_of_length_le hk
    have hrest := ih (fun x hx => hL x (List.mem_cons_of_mem _ hx))
    unfold multigetSlice at *
    rw [List.filterMap_cons]
    unfold windowCols
    rw [List.map_cons, List.flatten_cons]
    by_cases he : ((db k).filter (fun c => lo ≤ c.1 ∧ c.1 ≤ hi)).isEmpty = true
    · have hnil : (db k).filter (fun c => lo ≤ c.1 ∧ c.1 ≤ hi) = [] :=
        List.isEmpty_iff.mp he
      rw [show (let cs := sliceCols (db k) lo hi L;
            if cs.isEmpty then none else some (k, cs)) = none from by
            rw [htake, hnil]
            rfl]
      rw [hrest, hnil]
      rfl
    · rw [show (let cs := sliceCols (db k) lo hi L;
            if cs.isEmpty then none
            else some (k, cs))
          = some (k, (db k).filter (fun c => lo ≤ c.1 ∧ c.1 ≤ hi)) from by
            show (if (sliceCols (db k) lo hi L).isEmpty = true then none
                  else some (k, sliceCols (db k) lo hi L))
                = some (k, (db k).filter (fun c => lo ≤ c.1 ∧ c.1 ≤ hi))
            rw [htake, if_neg he]]
      rw [List.map_cons, List.flatten_cons, hrest, List.map_append]
      rfl

/-- C7: an invalid consolidation argument behaves exactly as `'average'` for
both the base-rate query (valid set `{average, delta}`) and the aggregation
query (valid set `AGG_TYPES = {average, min, max, raw}`); both still return
a result list. -/
theorem invalid_cf_defaults (db : RateDB) (aggdb : AggDB) (statdb : StatRowDB)
    (path : List (List Char)) (freq : Option Nat) (ts_min ts_max : Nat)
    (cc : Option Nat) (cf : String) :
    (cf ∉ ["average", "delta"] →
      query_baserate_timerange db path freq ts_min ts_max cf cc
        = query_baserate_timerange db path freq ts_min ts_max "average" cc) ∧
    (cf ∉ AGG_TYPES →
      query_aggregation_timerange aggdb statdb path freq ts_min ts_max cf cc
        = query_aggregation_timerange aggdb statdb path freq ts_min ts_max
            "average" cc) := by
  constructor
  · intro h
    unfold query_baserate_timerange
    rw [if_pos h]
    rw [if_neg (by norm_num : ¬ ("average" : String) ∉ ["average", "delta"])]
  · intro h
    unfold query_aggregation_timerange
    rw [if_pos h]
    rw [if_neg (by norm_num [AGG_TYPES] : ¬ ("average" : String) ∉ AGG_TYPES)]

/-- C8: for the three time-range query operations, leaving the column-count
limit unspecified behaves exactly as passing the summed per-shard counts of
the count query plus 5. -/
theorem soft_limit_padding (rawdb : RawDB) (db : RateDB) (aggdb : AggDB)
    (statdb : StatRowDB) (path : List (List Char)) (freq : Option Nat)
    (ts_min ts_max : Nat) (cf : String) :
    query_raw_data rawdb path freq ts_min ts_max none
      = query_raw_data rawdb path freq ts_min ts_max
          (some (sumCounts rawdb (get_row_keys path freq ts_min ts_max)
            ts_min ts_max + 5)) ∧
    query_baserate_timerange db path freq ts_min ts_max cf none
      = query_baserate_timerange db path freq ts_min ts_max cf
          (some (sumCounts db (get_row_keys path freq ts_min ts_max)
            ts_min ts_max + 5)) ∧
    (∀ c, c = "average" ∨ c = "raw" →
      query_aggregation_timerange aggdb statdb path freq ts_min ts_max c none
        = query_aggregation_timerange aggdb statdb path freq ts_min ts_max c
            (some (sumCounts aggdb (get_row_keys path freq ts_min ts_max)
              ts_min ts_max + 5))) ∧
    (∀ c, c = "min" ∨ c = "max" →
      query_aggregation_timerange aggdb statdb path freq ts_min ts_max c none
        = query_aggregation_timerange aggdb statdb path freq ts_min ts_max c
            (some (sumCounts statdb (get_row_keys path freq ts_min ts_max)
              ts_min ts_max + 5))) := by
  refine ⟨rfl, rfl, ?_, ?_⟩
  · rintro c (rfl | rfl) <;> rfl
  · rintro c (rfl | rfl) <;> rfl

/-- C10: with `freq` omitted, `query_baserate_timerange` substitutes 1000,
making the `'average'` divisor `int(1000/1000) = 1`, so `'average'` and
`'delta'` coincide and every stored column's `val` is returned unchanged. -/
theorem baserate_freq_none_default (db : RateDB) (path : List (List Char))
    (ts_min ts_max : Nat) (cc : Option Nat) :
    query_baserate_timerange db path none ts_min ts_max "average" cc
      = query_baserate_timerange db path none ts_min ts_max "delta" cc ∧
    query_baserate_timerange db path none ts_min ts_max "average" none
      = (windowCols db (get_row_keys path none ts_min ts_max) ts_min
          ts_max).map (fun c => ⟨c.1, (c.2.val : ℚ), c.2.is_valid⟩) := by
  refine ⟨rfl, ?_⟩
  have hq : query_baserate_timerange db path none ts_min ts_max "average" none
      = ((multigetSlice db (get_row_keys path none ts_min ts_max)
            ts_min ts_max
            (sumCounts db (get_row_keys path none ts_min ts_max)
              ts_min ts_max + 5)).map
          (fun kv => kv.2.map (fun c =>
            (⟨c.1, (c.2.val : ℚ) / ((1 : Nat) : ℚ), c.2.is_valid⟩
              : BRResult)))).flatten := rfl
  rw [hq, flatten_multigetSlice db _ ts_min ts_max _ _
        (count_le_sumCounts db _ ts_min ts_max)]
  refine List.map_congr_left ?_
  intro c _
  simp

end Esmond

namespace Esmond

/-- Witness for C7 at the invalid consolidation string `"bogus"`. -/
theorem invalid_cf_defaults_witness :
    query_baserate_timerange (fun _ => []) [['a']] (some 30000) 0 100 "bogus"
        none
      = query_baserate_timerange (fun _ => []) [['a']] (some 30000) 0 100
          "average" none ∧
    query_aggregation_timerange (fun _ => []) (fun _ => []) [['a']]
        (some 30000) 0 100 "bogus" none
      = query_aggregation_timerange (fun _ => []) (fun _ => []) [['a']]
          (some 30000) 0 100 "average" none :=
  ⟨(invalid_cf_defaults (fun _ => []) (fun _ => []) (fun _ => []) [['a']]
      (some 30000) 0 100 none "bogus").1 (by decide),
   (invalid_cf_defaults (fun _ => []) (fun _ => []) (fun _ => []) [['a']]
      (some 30000) 0 100 none "bogus").2 (by decide)⟩

/-- Witness for C8's aggregation conjuncts at `"average"` and `"min"`. -/
theorem soft_limit_padding_witness :
    query_aggregation_timerange (fun _ => []) (fun _ => []) [['a']]
        (some 30000) 0 100 "average" none
      = query_aggregation_timerange (fun _ => []) (fun _ => []) [['a']]
          (some 30000) 0 100 "average"
          (some (sumCounts (fun _ => ([] : List (Nat × List (String × Int))))
            (get_row_keys [['a']] (some 30000) 0 100) 0 100 + 5)) ∧
    query_aggregation_timerange (fun _ => []) (fun _ => []) [['a']]
        (some 30000) 0 100 "min" none
      = query_aggregation_timerange (fun _ => []) (fun _ => []) [['a']]
          (some 30000) 0 100 "min"
          (some (sumCounts (fun _ => ([] : List (Nat × StatCol)))
            (get_row_keys [['a']] (some 30000) 0 100) 0 100 + 5)) :=
  ⟨(soft_limit_padding (fun _ => []) (fun _ => []) (fun _ => []) (fun _ => [])
      [['a']] (some 30000) 0 100 "x").2.2.1 "average" (Or.inl rfl),
   (soft_limit_padding (fun _ => []) (fun _ => []) (fun _ => []) (fun _ => [])
      [['a']] (some 30000) 0 100 "x").2.2.2 "min" (Or.inl rfl)⟩

theorem digitChar_toNat (d : Nat) (h : d < 10) : (digitChar d).toNat = 48 + d := by
  interval_cases d <;> decide

theorem parseNat_natCharsAux (fuel n : Nat) (h : n < fuel) :
    parseNat (natCharsAux fuel n) = n := by
  induction fuel generalizing n with
  | zero => omega
  | succ fuel ih =>
    unfold natCharsAux
    by_cases h10 : n < 10
    · rw [if_pos h10]
      unfold parseNat
      rw [List.foldl_cons, List.foldl_nil, digitChar_toNat n h10]
      omega
    · rw [if_neg h10]
      unfold parseNat at *
      rw [List.foldl_append, List.foldl_cons, List.foldl_nil]
      rw [ih (n / 10) (by omega)]
      rw [digitChar_toNat (n % 10) (Nat.mod_lt _ (by norm_num))]
      omega

theorem parseNat_natChars (n : Nat) : parseNat (natChars n) = n :=
  parseNat_natCharsAux (n + 1) n (Nat.lt_succ_self n)

theorem natChars_str_ne_val (n : Nat) : String.mk (natChars n) ≠ "val" := by
  intro h
  have hdata : natChars n = ['v', 'a', 'l'] := congrArg String.data h
  have hv : 'v' ∈ natChars n := by
    rw [hdata]
    simp
  have hr := natCharsAux_range _ _ _ hv
  rw [show ('v' : Char).toNat = 118 from by decide] at hr
  omega

end Esmond

namespace Esmond

/-- Store for the C4 counterexample: one base-rate column `val=3` at a
series frequency of 1500 ms. -/
def brCexDB : RateDB := fun k =>
  if k = get_rowkey [['a']] (some 1500) (some 1970) then [(10, ⟨3, 1⟩)] else []

/-- C4, claim as frozen, refuted: at `freq = 1500` the code divides by
`int(freq/1000) = 1` and returns `3`, while the claimed formula
`val / (freq/1000)` gives `3 / 1.5 = 2`. -/
theorem baserate_average_cex :
    query_baserate_timerange brCexDB [['a']] (some 1500) 0 100 "average" none
      = [⟨10, (3 : ℚ), 1⟩] ∧
    (3 : ℚ) ≠ (3 : ℚ) / ((1500 : ℚ) / 1000) := by
  constructor
  · have hq : query_baserate_timerange brCexDB [['a']] (some 1500) 0 100
        "average" none
        = ((multigetSlice brCexDB (get_row_keys [['a']] (some 1500) 0 100)
              0 100
              (sumCounts brCexDB (get_row_keys [['a']] (some 1500) 0 100)
                0 100 + 5)).map
            (fun kv => kv.2.map (fun c =>
              (⟨c.1, (c.2.val : ℚ) / ((1500 / 1000 : Nat) : ℚ), c.2.is_valid⟩
                : BRResult)))).flatten := rfl
    rw [hq, flatten_multigetSlice brCexDB _ 0 100 _ _
          (count_le_sumCounts brCexDB _ 0 100)]
    rw [show windowCols brCexDB (get_row_keys [['a']] (some 1500) 0 100) 0 100
          = [(10, ⟨3, 1⟩)] from by decide]
    norm_num
  · norm_num

/-- C4 (amended): read-side consolidation.  Base-rate `'average'` divides
each stored `val` by the integer floor `freq div 1000` (equal to
`freq/1000` only when `1000 ∣ freq`); `'delta'` returns `val` unchanged; the
aggregation `'average'` returns `val / (count · base_freq/1000)` exactly,
where `count` is the value of the sub-column named after the base
frequency. -/
theorem read_consolidation_formulas (db : RateDB) (aggdb : AggDB)
    (statdb : StatRowDB) (path : List (List Char)) (f : Nat)
    (freq : Option Nat) (ts_min ts_max : Nat) :
    (1000 ≤ f →
      query_baserate_timerange db path (some f) ts_min ts_max "average" none
        = (windowCols db (get_row_keys path (some f) ts_min ts_max) ts_min
            ts_max).map
            (fun c => ⟨c.1, (c.2.val : ℚ) / ((f / 1000 : Nat) : ℚ),
              c.2.is_valid⟩)) ∧
    (query_baserate_timerange db path freq ts_min ts_max "delta" none
        = (windowCols db (get_row_keys path freq ts_min ts_max) ts_min
            ts_max).map (fun c => ⟨c.1, (c.2.val : ℚ), c.2.is_valid⟩)) ∧
    (∀ t v bf cnt,
      (t, [("val", v), (String.mk (natChars bf), cnt)])
        ∈ windowCols aggdb (get_row_keys path freq ts_min ts_max) ts_min
            ts_max →
      (⟨t, (v : ℚ) / ((cnt : ℚ) * ((bf : ℚ) / 1000)), "average", none⟩
          : AggResult)
        ∈ query_aggregation_timerange aggdb statdb path freq ts_min ts_max
            "average" none) := by
  refine ⟨?_, ?_, ?_⟩
  · intro hf
    have hq : query_baserate_timerange db path (some f) ts_min ts_max
        "average" none
        = ((multigetSlice db (get_row_keys path (some f) ts_min ts_max)
              ts_min ts_max
              (sumCounts db (get_row_keys path (some f) ts_min ts_max)
                ts_min ts_max + 5)).map
            (fun kv => kv.2.map (fun c =>
              (⟨c.1, (c.2.val : ℚ) / ((f / 1000 : Nat) : ℚ), c.2.is_valid⟩
                : BRResult)))).flatten := rfl
    rw [hq, flatten_multigetSlice db _ ts_min ts_max _ _
          (count_le_sumCounts db _ ts_min ts_max)]
  · have hq : query_baserate_timerange db path freq ts_min ts_max "delta" none
        = ((multigetSlice db (get_row_keys path freq ts_min ts_max)
              ts_min ts_max
              (sumCounts db (get_row_keys path freq ts_min ts_max)
                ts_min ts_max + 5)).map
            (fun kv => kv.2.map (fun c =>
              (⟨c.1, (c.2.val : ℚ) / ((1 : Nat) : ℚ), c.2.is_valid⟩
                : BRResult)))).flatten := rfl
    rw [hq, flatten_multigetSlice db _ ts_min ts_max _ _
          (count_le_sumCounts db _ ts_min ts_max)]
    refine List.map_congr_left ?_
    intro c _
    simp
  · intro t v bf cnt hmem
    have hq : query_aggregation_timerange aggdb statdb path freq ts_min ts_max
        "average" none
        = ((multigetSlice aggdb (get_row_keys path freq ts_min ts_max)
              ts_min ts_max
              (sumCounts aggdb (get_row_keys path freq ts_min ts_max)
                ts_min ts_max + 5)).map
            (fun kv => kv.2.map (fun c =>
              (⟨c.1, ((parseAggSuper c.2).1.getD 0 : ℚ)
                  / (((parseAggSuper c.2).2.2.getD 0 : ℚ)
                    * ((parseNat ((parseAggSuper c.2).2.1.getD "").data : ℚ)
                      / 1000)),
                "average", none⟩ : AggResult)))).flatten := rfl
    rw [hq, flatten_multigetSlice aggdb _ ts_min ts_max _ _
          (count_le_sumCounts aggdb _ ts_min ts_max)]
    refine List.mem_map.mpr
      ⟨(t, [("val", v), (String.mk (natChars bf), cnt)]), hmem, ?_⟩
    have hparse : parseAggSuper [("val", v), (String.mk (natChars bf), cnt)]
        = (some v, some (String.mk (natChars bf)), some cnt) := by
      unfold parseAggSuper
      rw [List.foldl_cons, List.foldl_cons, List.foldl_nil]
      rw [if_pos rfl, if_neg (natChars_str_ne_val bf)]
    simp only [hparse, Option.getD]
    rw [parseNat_natChars]

end Esmond

namespace Esmond

/-- Store for the C4 witness's aggregation part: one rate-aggregation super
column `{val: 120, "30000": 4}`. -/
def agWitDB : AggDB := fun k =>
  if k = get_rowkey [['a']] (some 3600000) (some 1970) then
    [(0, [("val", 120), (String.mk (natChars 30000), 4)])]
  else []

/-- Witness for C4 (amended): base-rate average at `freq = 30000` and the
aggregation average over a stored `{val: 120, "30000": 4}` column. -/
theorem read_consolidation_formulas_witness :
    (query_baserate_timerange brCexDB [['a']] (some 30000) 0 100 "average" none
      = (windowCols brCexDB (get_row_keys [['a']] (some 30000) 0 100)
          0 100).map
          (fun c => ⟨c.1, (c.2.val : ℚ) / ((30000 / 1000 : Nat) : ℚ),
            c.2.is_valid⟩)) ∧
    ((⟨0, ((120 : Int) : ℚ) / (((4 : Int) : ℚ) * (((30000 : Nat) : ℚ) / 1000)),
        "average", none⟩ : AggResult)
      ∈ query_aggregation_timerange agWitDB (fun _ => []) [['a']]
          (some 3600000) 0 100 "average" none) := by
  constructor
  · exact (read_consolidation_formulas brCexDB (fun _ => []) (fun _ => [])
      [['a']] 30000 none 0 100).1 (by norm_num)
  · refine (read_consolidation_formulas (fun _ => []) agWitDB (fun _ => [])
      [['a']] 1000 (some 3600000) 0 100).2.2 0 120 30000 4 ?_
    rw [show windowCols agWitDB (get_row_keys [['a']] (some 3600000) 0 100)
          0 100
          = [(0, [("val", 120), (String.mk (natChars 30000), 4)])] from rfl]
    exact List.mem_cons_self _ _

end Esmond

namespace Esmond

/-! ## Persister write operations and `MaximumRetryException` flow -/

/-- Outcome of the underlying batched `insert` call: either it succeeds, or
the connection pool exhausts its bounded retries and raises
`MaximumRetryException` (the batch may flush inside `insert`). -/
inductive InsertOutcome
  | ok
  | maxRetry
deriving Repr, DecidableEq

/-- The store-side exception of interest. -/
inductive StoreError
  | maximumRetry
deriving Repr, DecidableEq

/-- A raw insert: row key, column (ms), JSON value. -/
abbrev RawWrite : Type := List Char × Nat × Int

/-- A base-rate counter increment: row key, super column, `val`, `is_valid`. -/
abbrev RateWrite : Type := List Char × Nat × Int × Int

/-- A rate-aggregation counter increment: row key, super column, `val`
increment, and the base frequency whose sub-column count is incremented
by one. -/
abbrev AggWrite : Type := List Char × Nat × Int × Nat

/-- `set_raw_data(raw_data, ttl)`: inserts
`{raw_data.ts_to_jstime(): json.dumps(raw_data.val)}` under
`raw_data.get_key()`.  There is *no* `try/except` here: a
`MaximumRetryException` from the batched insert propagates to the caller. -/
def set_raw_data (o : InsertOutcome) (path : List (List Char))
    (freq ts : Nat) (val : Int) : Except StoreError (List RawWrite) :=
  match o with
  | .ok => .ok [(get_rowkey path (some freq) (some (utcYear ts)), jstime ts,
      val)]
  | .maxRetry => .error .maximumRetry

/-- `update_rate_bin(ratebin)`: the super-column counter insert is wrapped in
`try/except MaximumRetryException`, which logs a warning and drops the
write. -/
def update_rate_bin (o : InsertOutcome) (path : List (List Char))
    (freq ts : Nat) (val is_valid : Int) : Except StoreError (List RateWrite) :=
  match o with
  | .ok => .ok [(get_rowkey path (some freq) (some (utcYear ts)), jstime ts,
      val, is_valid)]
  | .maxRetry => .ok []

/-- `update_rate_aggregation(raw_data, agg_ts, freq)`: the counter insert
`{val: raw.val, str(raw.freq): 1}` is likewise wrapped in
`try/except MaximumRetryException`. -/
def update_rate_aggregation (o : InsertOutcome) (path : List (List Char))
    (freq aggTs : Nat) (val : Int) (base_freq : Nat) :
    Except StoreError (List AggWrite) :=
  match o with
  | .ok => .ok [(get_rowkey path (some freq) (some (utcYear aggTs)),
      jstime aggTs, val, base_freq)]
  | .maxRetry => .ok []

/-- `update_stat_aggregation` issues its `stat_agg.insert` calls with no
`try/except`: when the pure logic issues a write and the store raises, the
exception propagates. -/
def update_stat_aggregation_exc (o : InsertOutcome) (db : StatDB)
    (cache : AggCache) (path : List (List Char)) (freq aggTs : Nat)
    (val : Int) (rawTs : Nat) :
    Except StoreError (AggCache × List StatWrite × Bool) :=
  match o, (update_stat_aggregation db cache path freq aggTs val rawTs).2.1 with
  | .maxRetry, _ :: _ => .error .maximumRetry
  | _, _ => .ok (update_stat_aggregation db cache path freq aggTs val rawTs)

/-- C6, claim as frozen, refuted: a bounded-retry-exhausted error during the
raw insert is *not* caught inside `set_raw_data` — it propagates to the
persister caller. -/
theorem raw_insert_retry_cex :
    set_raw_data .maxRetry [['a']] 30000 1000 5
      = .error .maximumRetry := rfl

/-- C6 (amended): the base-rate and rate-aggregation counter increments
catch `MaximumRetryException` inside the operation (logged, the write
dropped, no error returned); the raw insert and the stat write have no
handler, so the error propagates to the caller whenever the operation
actually issues an insert. -/
theorem retry_error_flow (o : InsertOutcome) (path : List (List Char))
    (freq ts aggTs base_freq : Nat) (val is_valid : Int) (db : StatDB)
    (cache : AggCache) (rawTs : Nat) :
    (∃ w, update_rate_bin o path freq ts val is_valid = .ok w) ∧
    (∃ w, update_rate_aggregation o path freq aggTs val base_freq = .ok w) ∧
    set_raw_data .maxRetry path freq ts val = .error .maximumRetry ∧
    ((update_stat_aggregation db cache path freq aggTs val rawTs).2.1 ≠ [] →
      update_stat_aggregation_exc .maxRetry db cache path freq aggTs val rawTs
        = .error .maximumRetry) := by
  refine ⟨?_, ?_, rfl, ?_⟩
  · cases o <;> exact ⟨_, rfl⟩
  · cases o <;> exact ⟨_, rfl⟩
  · intro hw
    unfold update_stat_aggregation_exc
    cases hws : (update_stat_aggregation db cache path freq aggTs val rawTs).2.1 with
    | nil => exact absurd hws hw
    | cons w ws => rfl

/-- Witness for C6 (amended): a write-issuing stat update under a
retry-exhausted store raises to the caller; the rate increments do not. -/
theorem retry_error_flow_witness :
    (∃ w, update_rate_bin .maxRetry [['a']] 30000 1000 5 1 = .ok w) ∧
    (∃ w, update_rate_aggregation .maxRetry [['a']] 3600000 0 5 30000
      = .ok w) ∧
    set_raw_data .maxRetry [['a']] 30000 1000 5 = .error .maximumRetry ∧
    update_stat_aggregation_exc .maxRetry (fun _ _ => none) [] [['a']] 3600000
        0 5 500 = .error .maximumRetry := by
  have h := retry_error_flow .maxRetry [['a']] 30000 1000 0 30000 5 1
      (fun _ _ => none) [] 500
  have h2 := retry_error_flow .maxRetry [['a']] 3600000 1000 0 30000 5 1
      (fun _ _ => none) [] 500
  exact ⟨h.1, h2.2.1, h.2.2.1, h2.2.2.2 (by decide)⟩

end Esmond
